import Mathlib

/-!
Verification of the record-extraction core of the rare-disease-diagnosis
repository.  The Python sources are shallowly embedded: strings become
lists of characters, dictionaries become insertion-ordered association
lists with replace-on-update semantics, XML element trees become an
inductive tree type, and file-driven conversions become pure functions on
the already-read list of input lines or on the parsed element tree.
Character classifications (whitespace, word characters, upper-casing)
are modelled for ASCII text, which is the alphabet of the inputs the
parsers consume.
-/

set_option maxHeartbeats 1000000

/-- Python strings are modelled as lists of characters. -/
abbrev PyStr := List Char

/-- Left brace character, used when building namespaced tags. -/
def lbrace : Char := '\x7b'

/-- Right brace character, used when building namespaced tags. -/
def rbrace : Char := '\x7d'

/-- ASCII whitespace in the sense of Python str.strip and the regex class
for whitespace: space, tab, newline, carriage return, vertical tab and
form feed. -/
def isPySpace (c : Char) : Bool :=
  c == ' ' || c == '\t' || c == '\n' || c == '\r' || c == '\x0b' || c == '\x0c'

/-- ASCII word characters in the sense of the regex class: letters,
digits and the underscore. -/
def isWordChar (c : Char) : Bool :=
  c.isAlphanum || c == '_'

/-- Python str.strip: drop leading and trailing whitespace. -/
def pyStrip (l : PyStr) : PyStr :=
  ((l.dropWhile isPySpace).reverse.dropWhile isPySpace).reverse

/-- Python str.strip with a single given character instead of whitespace. -/
def pyStripChar (ch : Char) (l : PyStr) : PyStr :=
  ((l.dropWhile (· == ch)).reverse.dropWhile (· == ch)).reverse

/-- Python s.startswith(p). -/
def pyStartsWith : PyStr → PyStr → Bool
  | _, [] => true
  | [], _ :: _ => false
  | c :: s, p :: ps => c == p && pyStartsWith s ps

/-- Split a string at the first occurrence of the two-character separator
colon-space, as Python line.split(colon-space, 1); none when the
separator does not occur. -/
def splitColonSpace : PyStr → Option (PyStr × PyStr)
  | [] => none
  | ':' :: ' ' :: rest => some ([], rest)
  | c :: rest => (splitColonSpace rest).map (fun p => (c :: p.1, p.2))

/-- Split a string at the first occurrence of a character, as Python
line.split(ch, 1); none when the character does not occur. -/
def splitFirstChar (ch : Char) : PyStr → Option (PyStr × PyStr)
  | [] => none
  | c :: rest =>
      if c = ch then some ([], rest)
      else (splitFirstChar ch rest).map (fun p => (c :: p.1, p.2))

/-- Python s.split(ch): split at every occurrence, keeping empty pieces;
the empty string yields one empty piece. -/
def pySplitAll (ch : Char) : PyStr → List PyStr
  | [] => [[]]
  | c :: rest =>
      if c = ch then [] :: pySplitAll ch rest
      else
        match pySplitAll ch rest with
        | s :: ss => (c :: s) :: ss
        | [] => [[c]]

/-- Join a list of strings with the two-character separator used by every
flattener for list-valued cells: semicolon followed by a space. -/
def joinSemi : List PyStr → PyStr
  | [] => []
  | [x] => x
  | x :: xs => x ++ ';' :: ' ' :: joinSemi xs

/-- Python or on two strings: the first when it is non-empty (truthy),
else the second. -/
def pyOr (a b : PyStr) : PyStr := if a = [] then b else a

/- ### The ontology tag-block reader (parse_hpo_obo.py) -/

/-- The tags declared multi-valued in parse_term_block. -/
def multiTags : List PyStr :=
  ["synonym".data, "xref".data, "alt_id".data, "is_a".data,
   "intersection_of".data, "disjoint_from".data]

/-- parse_tag_value: split a line into tag and value at the first
colon-space; a line without the separator is returned whole as the tag
with an empty value. -/
def parseTagValue (line : PyStr) : PyStr × PyStr :=
  match splitColonSpace line with
  | none => (line, [])
  | some p => (pyStrip p.1, pyStrip p.2)

/-- A Term under construction: a mapping from tag to the list of its
values, modelled as an insertion-ordered association list with unique
keys, exactly the behaviour of a Python dict. -/
abbrev TermDict := List (PyStr × List PyStr)

/-- Dict lookup: the value at the first (only) binding of the key. -/
def dget : TermDict → PyStr → Option (List PyStr)
  | [], _ => none
  | p :: d, k => if p.1 = k then some p.2 else dget d k

/-- Dict assignment: replace the binding in place when the key exists,
append a new binding at the end otherwise. -/
def dset : TermDict → PyStr → List PyStr → TermDict
  | [], k, v => [(k, v)]
  | p :: d, k, v => if p.1 = k then (k, v) :: d else p :: dset d k v

/-- Apply a function to the last element of a list, as the Python update
of the element at index minus one.  The empty case cannot arise in the
reader because every stored list is created non-empty. -/
def updLast (f : PyStr → PyStr) : List PyStr → List PyStr
  | [] => []
  | [x] => [f x]
  | x :: xs => x :: updLast f xs

/-- term[tag].append(value) after creating an empty list when absent. -/
def dappendVal (d : TermDict) (k : PyStr) (v : PyStr) : TermDict :=
  match dget d k with
  | some vs => dset d k (vs ++ [v])
  | none => d ++ [(k, [v])]

/-- term[tag][-1] += space + continuation, for a key that is present. -/
def dcont (d : TermDict) (k : PyStr) (c : PyStr) : TermDict :=
  match dget d k with
  | some vs => dset d k (updLast (fun v => v ++ ' ' :: c) vs)
  | none => d

/-- The state carried across the lines of one term block: the dict under
construction and the most recently seen tag. -/
structure OboState where
  term : TermDict
  cur : Option PyStr
  deriving Repr

/-- One iteration of the line loop of parse_term_block: skip blank lines,
treat a line starting with a space character as a continuation of the
last value of the current tag when that tag is truthy and present,
otherwise parse tag and value, remember the tag, and record the value as
multi-valued accumulation or single-valued replacement. -/
def stepLine (s : OboState) (line : PyStr) : OboState :=
  if pyStrip line = [] then s
  else if line.head? = some ' ' then
    match s.cur with
    | some t =>
        if t ≠ [] ∧ (dget s.term t).isSome then
          { s with term := dcont s.term t (pyStrip line) }
        else s
    | none => s
  else
    let tv := parseTagValue line
    if tv.2 = [] then { s with cur := some tv.1 }
    else if tv.1 ∈ multiTags then
      { term := dappendVal s.term tv.1 tv.2, cur := some tv.1 }
    else
      { term := dset s.term tv.1 [tv.2], cur := some tv.1 }

/-- parse_term_block: none unless the first line starts with the block
marker, else fold the remaining lines through the line loop. -/
def parseTermBlock (lines : List PyStr) : Option TermDict :=
  match lines with
  | [] => none
  | first :: rest =>
      if pyStartsWith first "[Term]".data then
        some ((rest.foldl stepLine ⟨[], none⟩).term)
      else none

/- ### Dictionary lemmas -/

/-- The keys of a dict, in insertion order. -/
def dkeys (d : TermDict) : List PyStr := d.map Prod.fst

theorem dget_dset_self (d : TermDict) (k : PyStr) (v : List PyStr) :
    dget (dset d k v) k = some v := by
  induction d with
  | nil => simp [dset, dget]
  | cons p d ih =>
      by_cases h : p.1 = k
      · simp [dset, dget, h]
      · simp [dset, dget, h, ih]

theorem dget_dset_ne (d : TermDict) (k k' : PyStr) (v : List PyStr)
    (h : k' ≠ k) : dget (dset d k v) k' = dget d k' := by
  induction d with
  | nil => simp [dset, dget, Ne.symm h]
  | cons p d ih =>
      by_cases hp : p.1 = k
      · subst hp
        simp [dset, dget, Ne.symm h]
      · simp only [dset, if_neg hp, dget]
        by_cases hp' : p.1 = k'
        · simp [hp']
        · simp [hp', ih]

theorem dkeys_dset_of_isSome (d : TermDict) (k : PyStr) (v : List PyStr)
    (h : (dget d k).isSome) : dkeys (dset d k v) = dkeys d := by
  induction d with
  | nil => simp [dget] at h
  | cons p d ih =>
      by_cases hp : p.1 = k
      · simp [dset, dkeys, hp]
      · simp only [dget, if_neg hp] at h
        simp [dset, dkeys, hp, ih h]
        exact (ih h)

theorem dget_append_of_none (d : TermDict) (k : PyStr) (v : List PyStr)
    (h : dget d k = none) : dget (d ++ [(k, v)]) k = some v := by
  induction d with
  | nil => simp [dget]
  | cons p d ih =>
      by_cases hp : p.1 = k
      · simp [dget, hp] at h
      · simp only [dget, if_neg hp] at h
        simp [dget, hp, ih h]

theorem dget_append_ne (d : TermDict) (k k' : PyStr) (v : List PyStr)
    (h : k' ≠ k) : dget (d ++ [(k, v)]) k' = dget d k' := by
  induction d with
  | nil => simp [dget, Ne.symm h]
  | cons p d ih =>
      by_cases hp : p.1 = k'
      · simp [dget, hp]
      · simp [dget, hp, ih]

theorem dget_dappendVal_self (d : TermDict) (k : PyStr) (v : PyStr) :
    dget (dappendVal d k v) k = some ((dget d k).getD [] ++ [v]) := by
  unfold dappendVal
  cases h : dget d k with
  | some vs => simp [dget_dset_self]
  | none => simp [dget_append_of_none d k [v] h]

theorem dget_dappendVal_ne (d : TermDict) (k k' : PyStr) (v : PyStr)
    (h : k' ≠ k) : dget (dappendVal d k v) k' = dget d k' := by
  unfold dappendVal
  cases hg : dget d k with
  | some vs => simp [dget_dset_ne _ _ _ _ h]
  | none => simp [dget_append_ne _ _ _ _ h]

theorem dget_dcont_self (d : TermDict) (k : PyStr) (c : PyStr) :
    dget (dcont d k c) k =
      (dget d k).map (updLast (fun v => v ++ ' ' :: c)) := by
  unfold dcont
  cases h : dget d k with
  | some vs => simp [dget_dset_self]
  | none => simp [h]

theorem dget_dcont_ne (d : TermDict) (k k' : PyStr) (c : PyStr)
    (h : k' ≠ k) : dget (dcont d k c) k' = dget d k' := by
  unfold dcont
  cases hg : dget d k with
  | some vs => simp [dget_dset_ne _ _ _ _ h]
  | none => rfl

theorem dkeys_dcont (d : TermDict) (k : PyStr) (c : PyStr) :
    dkeys (dcont d k c) = dkeys d := by
  unfold dcont
  cases h : dget d k with
  | some vs =>
      exact dkeys_dset_of_isSome _ _ _ (by simp [h])
  | none => rfl

/- ### Claim C1: multi-valued accumulation, single-valued replacement -/

/-- The value-bearing occurrences of a tag among the lines of a block:
for each non-blank line whose parsed tag equals the given tag and whose
parsed value is non-empty, the parsed value, in line order. -/
def valueOccurrences (t : PyStr) (rest : List PyStr) : List PyStr :=
  rest.filterMap (fun line =>
    if pyStrip line = [] then none
    else
      let tv := parseTagValue line
      if tv.1 = t ∧ tv.2 ≠ [] then some tv.2 else none)

/-- Combine a prior optional value list with newly accumulated values,
for a multi-valued tag. -/
def accOpt (o : Option (List PyStr)) (occ : List PyStr) : Option (List PyStr) :=
  match o, occ with
  | some vs, _ => some (vs ++ occ)
  | none, [] => none
  | none, occ => some occ

/-- Keep the last newly seen value, else a prior optional value, for a
single-valued tag. -/
def lastOpt (o : Option (List PyStr)) (occ : List PyStr) : Option (List PyStr) :=
  match occ.getLast? with
  | some v => some [v]
  | none => o

theorem accOpt_some (vs occ) : accOpt (some vs) occ = some (vs ++ occ) := rfl

theorem accOpt_cons_none (v occ) : accOpt none (v :: occ) = some (v :: occ) := rfl

theorem lastOpt_cons (o v occ) :
    lastOpt o (v :: occ) = lastOpt (some [v]) occ := by
  unfold lastOpt
  cases h : occ.getLast? with
  | some w => simp [List.getLast?_cons, h]
  | none =>
      have : occ = [] := by
        cases occ with
        | nil => rfl
        | cons x xs => simp [List.getLast?_cons] at h
      subst this
      simp [List.getLast?_cons]

/-- The line-loop invariant for blocks without continuation lines: the
value stored for a tag combines what the state already held with the
value-bearing occurrences among the remaining lines; accumulation for
multi-valued tags, last-seen replacement for the rest. -/
theorem foldl_stepLine_dget (rest : List PyStr)
    (hnc : ∀ l ∈ rest, l.head? ≠ some ' ') (s : OboState) (t : PyStr) :
    dget ((rest.foldl stepLine s).term) t =
      if t ∈ multiTags then accOpt (dget s.term t) (valueOccurrences t rest)
      else lastOpt (dget s.term t) (valueOccurrences t rest) := by
  induction rest generalizing s with
  | nil =>
      simp only [List.foldl_nil, valueOccurrences, List.filterMap_nil]
      split
      · cases h : dget s.term t <;> simp [accOpt]
      · cases h : dget s.term t <;> rfl
  | cons line rest ih =>
      have hline : line.head? ≠ some ' ' := hnc line (by simp)
      have hrest : ∀ l ∈ rest, l.head? ≠ some ' ' := fun l hl => hnc l (by simp [hl])
      simp only [List.foldl_cons]
      by_cases hblank : pyStrip line = []
      · have hs : stepLine s line = s := by simp [stepLine, hblank]
        rw [hs, ih hrest]
        simp [valueOccurrences, hblank]
      · rcases htv : parseTagValue line with ⟨tg, vl⟩
        by_cases hv : vl = []
        · have hs : stepLine s line = { s with cur := some tg } := by
            simp [stepLine, hblank, hline, htv, hv]
          have hocc : valueOccurrences t (line :: rest) = valueOccurrences t rest := by
            simp [valueOccurrences, hblank, htv, hv]
          rw [hs, ih hrest, hocc]
        · have hocc : valueOccurrences t (line :: rest) =
              if tg = t then vl :: valueOccurrences t rest
              else valueOccurrences t rest := by
            by_cases ht : tg = t <;>
              simp [valueOccurrences, hblank, htv, ht, hv]
          by_cases hm : tg ∈ multiTags
          · have hs : stepLine s line =
                { term := dappendVal s.term tg vl, cur := some tg } := by
              simp [stepLine, hblank, hline, htv, hv, hm]
            rw [hs, ih hrest, hocc]
            dsimp only
            by_cases ht : tg = t
            · subst ht
              rw [if_pos rfl, if_pos hm, if_pos hm, dget_dappendVal_self]
              cases hg : dget s.term tg with
              | some vs => simp [accOpt, List.append_assoc]
              | none => simp [accOpt]
            · rw [if_neg ht,
                dget_dappendVal_ne _ _ _ _ (fun h => ht h.symm)]
          · have hs : stepLine s line =
                { term := dset s.term tg [vl], cur := some tg } := by
              simp [stepLine, hblank, hline, htv, hv, hm]
            rw [hs, ih hrest, hocc]
            dsimp only
            by_cases ht : tg = t
            · subst ht
              rw [if_pos rfl, if_neg hm, if_neg hm, dget_dset_self, lastOpt_cons]
            · rw [if_neg ht, dget_dset_ne _ _ _ _ (fun h => ht h.symm)]

/-- Claim C1: in a term block without continuation lines, every tag
declared multi-valued maps to the list of all its value-bearing
occurrences in first-seen order with none overwritten, and every other
tag retains only its last-seen value. -/
theorem obo_multivalued_accumulation (rest : List PyStr)
    (hnc : ∀ l ∈ rest, l.head? ≠ some ' ') :
    ∃ T, parseTermBlock ("[Term]".data :: rest) = some T ∧
      (∀ t ∈ multiTags, dget T t =
        if valueOccurrences t rest = [] then none
        else some (valueOccurrences t rest)) ∧
      (∀ t, t ∉ multiTags →
        dget T t = ((valueOccurrences t rest).getLast?).map (fun v => [v])) := by
  refine ⟨(rest.foldl stepLine ⟨[], none⟩).term, by simp [parseTermBlock, pyStartsWith], ?_, ?_⟩
  · intro t ht
    rw [foldl_stepLine_dget rest hnc ⟨[], none⟩ t, if_pos ht]
    cases hocc : valueOccurrences t rest with
    | nil => rfl
    | cons v occ => rfl
  · intro t ht
    rw [foldl_stepLine_dget rest hnc ⟨[], none⟩ t, if_neg ht]
    unfold lastOpt
    cases h : (valueOccurrences t rest).getLast? with
    | some v => rfl
    | none => rfl

/-- A concrete block exercising claim C1. -/
def oboSampleBlock : List PyStr :=
  ["id: HP:0000002".data, "synonym: first".data, "name: n1".data,
   "synonym: second".data, "name: n2".data, "xref: UMLS:C1".data]

theorem obo_multivalued_accumulation_witness :
    ∃ T, parseTermBlock ("[Term]".data :: oboSampleBlock) = some T ∧
      dget T "synonym".data =
        (if valueOccurrences "synonym".data oboSampleBlock = [] then none
         else some (valueOccurrences "synonym".data oboSampleBlock)) ∧
      dget T "name".data =
        ((valueOccurrences "name".data oboSampleBlock).getLast?).map (fun v => [v]) := by
  obtain ⟨T, h1, h2, h3⟩ :=
    obo_multivalued_accumulation oboSampleBlock (by decide)
  exact ⟨T, h1, h2 "synonym".data (by decide), h3 "name".data (by decide)⟩


/- ### Claim C2: continuation lines -/

/-- The text a run of continuation lines adds to the last value: one
space followed by each stripped continuation, in order. -/
def contSuffix : List PyStr → PyStr
  | [] => []
  | c :: cs => ' ' :: c ++ contSuffix cs

theorem updLast_cons_cons (f : PyStr → PyStr) (x y : PyStr) (ys : List PyStr) :
    updLast f (x :: y :: ys) = x :: updLast f (y :: ys) := by
  simp [updLast]

theorem updLast_shape (g : PyStr → PyStr) (y : PyStr) (ys : List PyStr) :
    ∃ z zs, updLast g (y :: ys) = z :: zs := by
  cases ys with
  | nil => exact ⟨g y, [], rfl⟩
  | cons w ws => exact ⟨y, updLast g (w :: ws), updLast_cons_cons g y w ws⟩

theorem updLast_append_nil (vs : List PyStr) :
    updLast (fun v => v ++ ([] : PyStr)) vs = vs := by
  induction vs with
  | nil => rfl
  | cons x xs ih =>
      cases xs with
      | nil => simp [updLast]
      | cons y ys => rw [updLast_cons_cons, ih]

theorem updLast_congr (f g : PyStr → PyStr) (l : List PyStr)
    (h : ∀ v, f v = g v) : updLast f l = updLast g l := by
  induction l with
  | nil => rfl
  | cons x xs ih =>
      cases xs with
      | nil => simp [updLast, h]
      | cons y ys => rw [updLast_cons_cons, updLast_cons_cons, ih]

theorem updLast_updLast (f g : PyStr → PyStr) (l : List PyStr) :
    updLast f (updLast g l) = updLast (fun v => f (g v)) l := by
  induction l with
  | nil => rfl
  | cons x xs ih =>
      cases xs with
      | nil => rfl
      | cons y ys =>
          obtain ⟨z, zs, hz⟩ := updLast_shape g y ys
          rw [updLast_cons_cons g x y ys,
            updLast_cons_cons (fun v => f (g v)) x y ys, ← ih, hz,
            updLast_cons_cons f x z zs]

/-- Claim C2 (amended): a continuation line is one beginning with a space
character; such a line never introduces a new tag and never changes the
current tag; before any tag has been seen it is discarded entirely; and
with current tag t present with values vs, a run of non-blank
continuation lines extends only the last element of vs by one space plus
each stripped continuation in order. -/
theorem obo_continuation_behavior :
    (∀ (s : OboState) (line : PyStr), line.head? = some ' ' →
      dkeys (stepLine s line).term = dkeys s.term ∧
        (stepLine s line).cur = s.cur) ∧
    (∀ (s : OboState) (line : PyStr), line.head? = some ' ' →
      s.cur = none → stepLine s line = s) ∧
    (∀ (s : OboState) (t : PyStr) (vs : List PyStr) (ls : List PyStr),
      s.cur = some t → t ≠ [] → dget s.term t = some vs →
      (∀ l ∈ ls, l.head? = some ' ' ∧ pyStrip l ≠ []) →
      dget ((ls.foldl stepLine s).term) t =
        some (updLast (fun v => v ++ contSuffix (ls.map pyStrip)) vs) ∧
      (ls.foldl stepLine s).cur = some t) := by
  refine ⟨?_, ?_, ?_⟩
  · intro s line hsp
    obtain ⟨tm, cur⟩ := s
    unfold stepLine
    by_cases hblank : pyStrip line = []
    · simp [hblank]
    · rw [if_neg hblank, if_pos hsp]
      cases cur with
      | none => exact ⟨by trivial, by trivial⟩
      | some t =>
          dsimp only
          by_cases hc : t ≠ [] ∧ (dget tm t).isSome
          · rw [if_pos hc]
            exact ⟨dkeys_dcont _ _ _, by trivial⟩
          · rw [if_neg hc]
            exact ⟨by trivial, by trivial⟩
  · intro s line hsp hcur
    obtain ⟨tm, cur⟩ := s
    unfold stepLine
    by_cases hblank : pyStrip line = []
    · simp [hblank]
    · rw [if_neg hblank, if_pos hsp]
      cases cur with
      | none => rfl
      | some t => simp at hcur
  · intro s t vs ls
    induction ls generalizing s vs with
    | nil =>
        intro hcur ht hvs _
        simp only [List.foldl_nil, List.map_nil, contSuffix, hvs, hcur]
        rw [updLast_append_nil]
        exact ⟨by trivial, by trivial⟩
    | cons l ls ih =>
        intro hcur ht hvs hl
        have hsp : l.head? = some ' ' := (hl l (by simp)).1
        have hnb : pyStrip l ≠ [] := (hl l (by simp)).2
        have hls : ∀ x ∈ ls, x.head? = some ' ' ∧ pyStrip x ≠ [] :=
          fun x hx => hl x (by simp [hx])
        have hstep : stepLine s l =
            { term := dcont s.term t (pyStrip l), cur := some t } := by
          unfold stepLine
          rw [if_neg hnb, if_pos hsp, hcur]
          dsimp only
          rw [if_pos ⟨ht, by simp [hvs]⟩]
        have hvs' : dget (dcont s.term t (pyStrip l)) t =
            some (updLast (fun v => v ++ ' ' :: pyStrip l) vs) := by
          rw [dget_dcont_self, hvs]
          rfl
        obtain ⟨h1, h2⟩ := ih { term := dcont s.term t (pyStrip l), cur := some t }
          (updLast (fun v => v ++ ' ' :: pyStrip l) vs) rfl ht hvs' hls
        simp only [List.foldl_cons, hstep]
        refine ⟨?_, h2⟩
        rw [h1, updLast_updLast]
        refine congrArg some (updLast_congr _ _ vs (fun v => ?_))
        simp [contSuffix, List.append_assoc]

/-- A concrete state and continuation run exercising claim C2. -/
def c2State : OboState :=
  { term := [("def".data, ["base".data])], cur := some "def".data }

theorem obo_continuation_behavior_witness :
    ("  more".data.head? = some ' ' →
      dkeys (stepLine c2State "  more".data).term = dkeys c2State.term ∧
        (stepLine c2State "  more".data).cur = c2State.cur) ∧
    dget (([" c1".data, "  c2".data].foldl stepLine c2State).term) "def".data =
      some (updLast
        (fun v => v ++ contSuffix ([" c1".data, "  c2".data].map pyStrip))
        ["base".data]) := by
  refine ⟨fun h => obo_continuation_behavior.1 c2State "  more".data h, ?_⟩
  exact (obo_continuation_behavior.2.2 c2State "def".data ["base".data]
    [" c1".data, "  c2".data] rfl (by decide) (by decide) (by decide)).1

/-- Claim C2 counterexample: the line tab-f-o-o-colon-space-b-a-r begins
with leading whitespace (a tab) yet introduces the new tag foo into the
term, because the reader treats only a leading space character as a
continuation marker. -/
theorem obo_continuation_tab_counterexample :
    isPySpace '\t' = true ∧
    ("\tfoo: bar".data).head? ≠ some ' ' ∧
    parseTermBlock ["[Term]".data, "\tfoo: bar".data] =
      some [("foo".data, ["bar".data])] := by
  refine ⟨by decide, by decide, by decide⟩

/- ### The synonym decomposer (extract_synonym_details) -/

/-- Character class of the quoted-segment body of the synonym pattern:
anything but a double quote. -/
def notQuote (c : Char) : Bool := c != '"'

/-- Character class of the bracketed-source body: the lazy dot of the
pattern stops at the closing bracket and cannot cross a newline. -/
def notBrClose (c : Char) : Bool := c != ']' && c != '\n'

/-- The bracketed tail of the synonym pattern, entered just after the
opening bracket: the source runs to the first closing bracket, failing if
none occurs before a newline or the end. -/
def bracketPart (l : PyStr) : Option PyStr :=
  match l.dropWhile notBrClose with
  | ']' :: _ => some (l.takeWhile notBrClose)
  | _ => none

/-- The part of the synonym pattern after the type token: an optional
whitespace-separated subtype word, optional whitespace, and the
bracketed source.  The regex backtracking is deterministic here: a
subtype is taken exactly when a word character follows the whitespace
run, and in that case the bracket must follow it. -/
def afterType (r4 : PyStr) : Option (Option PyStr × PyStr) :=
  match r4 with
  | [] => none
  | c :: _ =>
      if isPySpace c then
        match r4.dropWhile isPySpace with
        | [] => none
        | d :: r5tl =>
            if isWordChar d then
              let sub := (d :: r5tl).takeWhile isWordChar
              let r6 := (d :: r5tl).dropWhile isWordChar
              match r6.dropWhile isPySpace with
              | '[' :: r8 => (bracketPart r8).map (fun src => (some sub, src))
              | _ => none
            else
              match d :: r5tl with
              | '[' :: r8 => (bracketPart r8).map (fun src => (none, src))
              | _ => none
      else
        match r4 with
        | '[' :: r8 => (bracketPart r8).map (fun src => (none, src))
        | _ => none

/-- The anchored match of the synonym pattern: a quoted non-empty text,
at least one whitespace, a word-character type token, then the optional
subtype and the bracketed source; the remainder of the string after the
closing bracket is ignored.  Returns the four capture groups. -/
def matchSyn (s : PyStr) : Option (PyStr × PyStr × Option PyStr × PyStr) :=
  match s with
  | '"' :: rest =>
      if rest.takeWhile notQuote = [] then none
      else
        match rest.dropWhile notQuote with
        | '"' :: r2 =>
            if r2.takeWhile isPySpace = [] then none
            else
              let r3 := r2.dropWhile isPySpace
              if r3.takeWhile isWordChar = [] then none
              else
                (afterType (r3.dropWhile isWordChar)).map
                  (fun p => (rest.takeWhile notQuote, r3.takeWhile isWordChar, p.1, p.2))
        | _ => none
  | _ => none

/-- extract_synonym_details: on a match, the stripped text, the type with
the subtype appended after one space when present, and the stripped
source; on no match, the original string with empty type and source. -/
def extractSynonymDetails (syn : PyStr) : PyStr × PyStr × PyStr :=
  match matchSyn syn with
  | none => (syn, [], [])
  | some (text, ty, subOpt, source) =>
      let fullType := match subOpt with
        | some sub => ty ++ ' ' :: sub
        | none => ty
      (pyStrip text, pyStrip fullType, pyStrip source)

/- ### Span lemmas and character-class facts -/

theorem span_append (p : Char → Bool) (l : PyStr) (x : Char) (r : PyStr)
    (hl : ∀ c ∈ l, p c = true) (hx : p x = false) :
    (l ++ x :: r).takeWhile p = l ∧ (l ++ x :: r).dropWhile p = x :: r := by
  induction l with
  | nil => simp [List.takeWhile_cons, List.dropWhile_cons, hx]
  | cons c cs ih =>
      have hc : p c = true := hl c (by simp)
      obtain ⟨h1, h2⟩ := ih (fun u hu => hl u (by simp [hu]))
      simp [List.takeWhile_cons, List.dropWhile_cons, hc, h1, h2]

theorem space_not_word (c : Char) (h : isPySpace c = true) :
    isWordChar c = false := by
  simp only [isPySpace, Bool.or_eq_true, beq_iff_eq] at h
  rcases h with ((((h | h) | h) | h) | h) | h <;> subst h <;> decide

theorem word_not_space (c : Char) (h : isWordChar c = true) :
    isPySpace c = false := by
  cases hs : isPySpace c
  · rfl
  · rw [space_not_word c hs] at h
    exact absurd h (by decide)

theorem dropWhile_no (p : Char → Bool) (l : PyStr)
    (h : ∀ c, l.head? = some c → p c = false) : l.dropWhile p = l := by
  cases l with
  | nil => rfl
  | cons x xs => simp [List.dropWhile_cons, h x rfl]

theorem pyStrip_eq_self (l : PyStr)
    (h1 : ∀ c, l.head? = some c → isPySpace c = false)
    (h2 : ∀ c, l.getLast? = some c → isPySpace c = false) :
    pyStrip l = l := by
  unfold pyStrip
  rw [dropWhile_no _ _ h1, dropWhile_no, List.reverse_reverse]
  intro c hc
  exact h2 c (by rwa [List.head?_reverse] at hc)

theorem pyStrip_of_all_word (l : PyStr)
    (h : ∀ c ∈ l, isWordChar c = true) : pyStrip l = l := by
  refine pyStrip_eq_self l (fun c hc => ?_) (fun c hc => ?_)
  · exact word_not_space c (h c (List.mem_of_mem_head? hc))
  · exact word_not_space c (h c (List.mem_of_mem_getLast? hc))


/- ### Shape lemmas for the synonym pattern -/

theorem bracketPart_spec (src tail : PyStr)
    (h : ∀ c ∈ src, c ≠ ']' ∧ c ≠ '\n') :
    bracketPart (src ++ ']' :: tail) = some src := by
  have hsrc : ∀ c ∈ src, notBrClose c = true := by
    intro c hc
    have := h c hc
    simp [notBrClose, this.1, this.2]
  obtain ⟨h1, h2⟩ := span_append notBrClose src ']' tail hsrc (by decide)
  simp [bracketPart, h1, h2]

theorem afterType_nosub (src tail : PyStr)
    (h : ∀ c ∈ src, c ≠ ']' ∧ c ≠ '\n') :
    afterType (' ' :: '[' :: (src ++ ']' :: tail)) = some (none, src) := by
  have hb : bracketPart (src ++ ']' :: tail) = some src := bracketPart_spec src tail h
  have e1 : (' ' :: '[' :: (src ++ ']' :: tail)).dropWhile isPySpace =
      '[' :: (src ++ ']' :: tail) := by
    simp [List.dropWhile_cons, (by decide : isPySpace ' ' = true),
      (by decide : isPySpace '[' = false)]
  simp only [afterType, e1, (by decide : isPySpace ' ' = true),
    (by decide : isWordChar '[' = false), if_true, if_false, Bool.false_eq_true,
    if_neg (by decide : ¬ False), hb, Option.map_some]
  simp

theorem afterType_sub (sub src tail : PyStr)
    (hsub : sub ≠ []) (hw : ∀ c ∈ sub, isWordChar c = true)
    (h : ∀ c ∈ src, c ≠ ']' ∧ c ≠ '\n') :
    afterType (' ' :: (sub ++ ' ' :: '[' :: (src ++ ']' :: tail))) =
      some (some sub, src) := by
  obtain ⟨s0, s', rfl⟩ : ∃ s0 s', sub = s0 :: s' := by
    cases sub with
    | nil => exact absurd rfl hsub
    | cons s0 s' => exact ⟨s0, s', rfl⟩
  have hs0 : isWordChar s0 = true := hw s0 (by simp)
  have hb : bracketPart (src ++ ']' :: tail) = some src := bracketPart_spec src tail h
  have e1 : (' ' :: (s0 :: s' ++ ' ' :: '[' :: (src ++ ']' :: tail))).dropWhile isPySpace =
      s0 :: s' ++ ' ' :: '[' :: (src ++ ']' :: tail) := by
    simp [List.dropWhile_cons, (by decide : isPySpace ' ' = true),
      word_not_space s0 hs0]
  obtain ⟨hw1, hw2⟩ := span_append isWordChar (s0 :: s') ' '
    ('[' :: (src ++ ']' :: tail)) hw (by decide)
  have e2 : (' ' :: '[' :: (src ++ ']' :: tail)).dropWhile isPySpace =
      '[' :: (src ++ ']' :: tail) := by
    simp [List.dropWhile_cons, (by decide : isPySpace ' ' = true),
      (by decide : isPySpace '[' = false)]
  simp only [List.cons_append] at e1 hw1 hw2
  simp only [afterType, List.cons_append, e1, hs0, hw1, hw2, e2,
    (by decide : isPySpace ' ' = true), if_true, hb, Option.map_some]
  simp

/-- The full template of the synonym pattern without a subtype, followed
by an arbitrary tail after the closing bracket. -/
def synShape (a t src tail : PyStr) : PyStr :=
  '"' :: (a ++ ('"' :: ' ' :: (t ++ (' ' :: '[' :: (src ++ (']' :: tail))))))

/-- The full template of the synonym pattern with a subtype, followed by
an arbitrary tail after the closing bracket. -/
def synShapeSub (a t sub src tail : PyStr) : PyStr :=
  '"' :: (a ++ ('"' :: ' ' :: (t ++ (' ' :: (sub ++ (' ' :: '[' :: (src ++ (']' :: tail))))))))

theorem matchSyn_shape (a t src tail : PyStr)
    (ha : a ≠ []) (haq : ∀ c ∈ a, c ≠ '"')
    (ht : t ≠ []) (htw : ∀ c ∈ t, isWordChar c = true)
    (hsrc : ∀ c ∈ src, c ≠ ']' ∧ c ≠ '\n') :
    matchSyn (synShape a t src tail) = some (a, t, none, src) := by
  obtain ⟨t0, t', rfl⟩ : ∃ t0 t', t = t0 :: t' := by
    cases t with
    | nil => exact absurd rfl ht
    | cons t0 t' => exact ⟨t0, t', rfl⟩
  have haq' : ∀ c ∈ a, notQuote c = true := by
    intro c hc
    simp [notQuote, haq c hc]
  have ht0 : isWordChar t0 = true := htw t0 (by simp)
  obtain ⟨hq1, hq2⟩ := span_append notQuote a '"'
    (' ' :: ((t0 :: t') ++ (' ' :: '[' :: (src ++ (']' :: tail))))) haq' (by decide)
  obtain ⟨ht1, ht2⟩ := span_append isWordChar (t0 :: t') ' '
    ('[' :: (src ++ (']' :: tail))) htw (by decide)
  have e3 : (' ' :: ((t0 :: t') ++ (' ' :: '[' :: (src ++ (']' :: tail))))).takeWhile isPySpace =
      ' ' :: (((t0 :: t') ++ (' ' :: '[' :: (src ++ (']' :: tail)))).takeWhile isPySpace) := by
    simp [List.takeWhile_cons, (by decide : isPySpace ' ' = true)]
  have e4 : (' ' :: ((t0 :: t') ++ (' ' :: '[' :: (src ++ (']' :: tail))))).dropWhile isPySpace =
      (t0 :: t') ++ (' ' :: '[' :: (src ++ (']' :: tail))) := by
    simp [List.dropWhile_cons, (by decide : isPySpace ' ' = true),
      word_not_space t0 ht0]
  have hat := afterType_nosub src tail hsrc
  simp only [List.cons_append] at hq1 hq2 ht1 ht2 e3 e4 hat
  simp only [synShape, matchSyn, List.cons_append, hq1, hq2, if_neg ha, e3, e4,
    ht1, ht2, hat, Option.map_some]
  simp

theorem matchSyn_shapeSub (a t sub src tail : PyStr)
    (ha : a ≠ []) (haq : ∀ c ∈ a, c ≠ '"')
    (ht : t ≠ []) (htw : ∀ c ∈ t, isWordChar c = true)
    (hsub : sub ≠ []) (hsw : ∀ c ∈ sub, isWordChar c = true)
    (hsrc : ∀ c ∈ src, c ≠ ']' ∧ c ≠ '\n') :
    matchSyn (synShapeSub a t sub src tail) = some (a, t, some sub, src) := by
  obtain ⟨t0, t', rfl⟩ : ∃ t0 t', t = t0 :: t' := by
    cases t with
    | nil => exact absurd rfl ht
    | cons t0 t' => exact ⟨t0, t', rfl⟩
  have haq' : ∀ c ∈ a, notQuote c = true := by
    intro c hc
    simp [notQuote, haq c hc]
  have ht0 : isWordChar t0 = true := htw t0 (by simp)
  obtain ⟨hq1, hq2⟩ := span_append notQuote a '"'
    (' ' :: ((t0 :: t') ++ (' ' :: (sub ++ (' ' :: '[' :: (src ++ (']' :: tail)))))))
    haq' (by decide)
  obtain ⟨ht1, ht2⟩ := span_append isWordChar (t0 :: t') ' '
    (sub ++ (' ' :: '[' :: (src ++ (']' :: tail)))) htw (by decide)
  have e3 : (' ' :: ((t0 :: t') ++ (' ' :: (sub ++ (' ' :: '[' :: (src ++ (']' :: tail))))))).takeWhile isPySpace =
      ' ' :: (((t0 :: t') ++ (' ' :: (sub ++ (' ' :: '[' :: (src ++ (']' :: tail)))))).takeWhile isPySpace) := by
    simp [List.takeWhile_cons, (by decide : isPySpace ' ' = true)]
  have e4 : (' ' :: ((t0 :: t') ++ (' ' :: (sub ++ (' ' :: '[' :: (src ++ (']' :: tail))))))).dropWhile isPySpace =
      (t0 :: t') ++ (' ' :: (sub ++ (' ' :: '[' :: (src ++ (']' :: tail))))) := by
    simp [List.dropWhile_cons, (by decide : isPySpace ' ' = true),
      word_not_space t0 ht0]
  have hat := afterType_sub sub src tail hsub hsw hsrc
  simp only [List.cons_append] at hq1 hq2 ht1 ht2 e3 e4 hat
  simp only [synShapeSub, matchSyn, List.cons_append, hq1, hq2, if_neg ha, e3, e4,
    ht1, ht2, hat, Option.map_some]
  simp

theorem getLast?_append_ne (l m : PyStr) (hm : m ≠ []) :
    (l ++ m).getLast? = m.getLast? := by
  rw [← List.head?_reverse, ← List.head?_reverse, List.reverse_append]
  obtain ⟨x, xs, hx⟩ : ∃ x xs, m.reverse = x :: xs := by
    cases hr : m.reverse with
    | nil =>
        exact absurd (by simpa using congrArg List.reverse hr) hm
    | cons x xs => exact ⟨x, xs, rfl⟩
  rw [hx]
  simp

theorem pyStrip_word_space_word (t sub : PyStr)
    (ht : t ≠ []) (htw : ∀ c ∈ t, isWordChar c = true)
    (hsub : sub ≠ []) (hsw : ∀ c ∈ sub, isWordChar c = true) :
    pyStrip (t ++ ' ' :: sub) = t ++ ' ' :: sub := by
  obtain ⟨t0, t', rfl⟩ : ∃ t0 t', t = t0 :: t' := by
    cases t with
    | nil => exact absurd rfl ht
    | cons t0 t' => exact ⟨t0, t', rfl⟩
  refine pyStrip_eq_self _ (fun c hc => ?_) (fun c hc => ?_)
  · simp only [List.cons_append, List.head?_cons, Option.some.injEq] at hc
    rw [← hc]
    exact word_not_space t0 (htw t0 (by simp))
  · rw [getLast?_append_ne _ _ (by simp)] at hc
    have : (' ' :: sub).getLast? = sub.getLast? := by
      have := getLast?_append_ne [' '] sub hsub
      simpa using this
    rw [this] at hc
    exact word_not_space c (hsw c (List.mem_of_mem_getLast? hc))

/-- Helper shared by claims about the decomposer: on the no-subtype
template with any tail after the closing bracket, the decomposer returns
exactly the three components. -/
theorem extract_shape_tail (a t src tail : PyStr)
    (ha : a ≠ []) (haq : ∀ c ∈ a, c ≠ '"') (has : pyStrip a = a)
    (ht : t ≠ []) (htw : ∀ c ∈ t, isWordChar c = true)
    (hsrc : ∀ c ∈ src, c ≠ ']' ∧ c ≠ '\n') (hss : pyStrip src = src) :
    extractSynonymDetails (synShape a t src tail) = (a, t, src) := by
  unfold extractSynonymDetails
  rw [matchSyn_shape a t src tail ha haq ht htw hsrc]
  simp only [has, hss, pyStrip_of_all_word t htw]

/-- Helper: same for the subtype template. -/
theorem extract_shapeSub_tail (a t sub src tail : PyStr)
    (ha : a ≠ []) (haq : ∀ c ∈ a, c ≠ '"') (has : pyStrip a = a)
    (ht : t ≠ []) (htw : ∀ c ∈ t, isWordChar c = true)
    (hsub : sub ≠ []) (hsw : ∀ c ∈ sub, isWordChar c = true)
    (hsrc : ∀ c ∈ src, c ≠ ']' ∧ c ≠ '\n') (hss : pyStrip src = src) :
    extractSynonymDetails (synShapeSub a t sub src tail) =
      (a, t ++ ' ' :: sub, src) := by
  unfold extractSynonymDetails
  rw [matchSyn_shapeSub a t sub src tail ha haq ht htw hsub hsw hsrc]
  simp only [has, hss, pyStrip_word_space_word t sub ht htw hsub hsw]

/-- Claim C3: the decomposer is total; a string in the quoted-text,
type-token, optional-subtype, bracketed-source shape decomposes into the
quoted text, the type with the subtype appended after one space when
present, and the bracket contents which may be empty; the documented
example decomposes as stated; a string the pattern does not match is
returned verbatim as the text with empty type and source. -/
theorem synonym_decomposer_correct :
    (∀ s : PyStr, matchSyn s = none → extractSynonymDetails s = (s, [], [])) ∧
    (∀ a t src : PyStr, a ≠ [] → (∀ c ∈ a, c ≠ '"') → pyStrip a = a →
      t ≠ [] → (∀ c ∈ t, isWordChar c = true) →
      (∀ c ∈ src, c ≠ ']' ∧ c ≠ '\n') → pyStrip src = src →
      extractSynonymDetails (synShape a t src []) = (a, t, src)) ∧
    (∀ a t sub src : PyStr, a ≠ [] → (∀ c ∈ a, c ≠ '"') → pyStrip a = a →
      t ≠ [] → (∀ c ∈ t, isWordChar c = true) →
      sub ≠ [] → (∀ c ∈ sub, isWordChar c = true) →
      (∀ c ∈ src, c ≠ ']' ∧ c ≠ '\n') → pyStrip src = src →
      extractSynonymDetails (synShapeSub a t sub src []) =
        (a, t ++ ' ' :: sub, src)) ∧
    extractSynonymDetails "\"Abnormality of body height\" EXACT layperson []".data =
      ("Abnormality of body height".data, "EXACT layperson".data, []) := by
  refine ⟨?_, ?_, ?_, ?_⟩
  · intro s h
    simp [extractSynonymDetails, h]
  · intro a t src ha haq has ht htw hsrc hss
    exact extract_shape_tail a t src [] ha haq has ht htw hsrc hss
  · intro a t sub src ha haq has ht htw hsub hsw hsrc hss
    exact extract_shapeSub_tail a t sub src [] ha haq has ht htw hsub hsw hsrc hss
  · decide

theorem synonym_decomposer_correct_witness :
    extractSynonymDetails "no quotes here".data = ("no quotes here".data, [], []) ∧
    extractSynonymDetails
        (synShape "Tall stature".data "EXACT".data "UMLS:C0241240".data []) =
      ("Tall stature".data, "EXACT".data, "UMLS:C0241240".data) ∧
    extractSynonymDetails
        (synShapeSub "Big".data "EXACT".data "layperson".data [] []) =
      ("Big".data, "EXACT".data ++ ' ' :: "layperson".data, []) := by
  refine ⟨?_, ?_, ?_⟩
  · exact synonym_decomposer_correct.1 "no quotes here".data (by decide)
  · exact synonym_decomposer_correct.2.1 "Tall stature".data "EXACT".data
      "UMLS:C0241240".data (by decide) (by decide) (by decide) (by decide)
      (by decide) (by decide) (by decide)
  · exact synonym_decomposer_correct.2.2.1 "Big".data "EXACT".data
      "layperson".data [] (by decide) (by decide) (by decide) (by decide)
      (by decide) (by decide) (by decide) (by decide) (by decide)

/-- Claim C10: a string that begins with a substring in the synonym
shape is matched on that prefix only: any trailing characters after the
first bracketed segment are accepted silently and appear in none of the
three returned components. -/
theorem synonym_decomposer_prefix_only (a t src tail : PyStr)
    (ha : a ≠ []) (haq : ∀ c ∈ a, c ≠ '"') (has : pyStrip a = a)
    (ht : t ≠ []) (htw : ∀ c ∈ t, isWordChar c = true)
    (hsrc : ∀ c ∈ src, c ≠ ']' ∧ c ≠ '\n') (hss : pyStrip src = src) :
    extractSynonymDetails (synShape a t src tail) = (a, t, src) :=
  extract_shape_tail a t src tail ha haq has ht htw hsrc hss

theorem synonym_decomposer_prefix_only_witness :
    extractSynonymDetails
        (synShape "Tall".data "RELATED".data [] " junk ] more".data) =
      ("Tall".data, "RELATED".data, []) :=
  synonym_decomposer_prefix_only "Tall".data "RELATED".data [] " junk ] more".data
    (by decide) (by decide) (by decide) (by decide) (by decide) (by decide)
    (by decide)

/- ### The XML element model and the tree navigation utility -/

/-- An element tree node: tag, attribute list, optional text, children.
This models xml.etree.ElementTree elements as the parsers use them. -/
inductive Elem where
  | mk : PyStr → List (PyStr × PyStr) → Option PyStr → List Elem → Elem

def Elem.tag : Elem → PyStr
  | .mk t _ _ _ => t

def Elem.attrs : Elem → List (PyStr × PyStr)
  | .mk _ a _ _ => a

def Elem.text : Elem → Option PyStr
  | .mk _ _ tx _ => tx

def Elem.children : Elem → List Elem
  | .mk _ _ _ cs => cs

/-- elem.get(key): the attribute value, none when absent. -/
def Elem.get (e : Elem) (k : PyStr) : Option PyStr :=
  (e.attrs.find? (fun p => p.1 == k)).map Prod.snd

/-- elem.get(key, default): the attribute value or the default. -/
def Elem.getD (e : Elem) (k d : PyStr) : PyStr := (e.get k).getD d

/-- The remainder of a tag after the first closing brace, none when no
closing brace occurs. -/
def afterBrace : PyStr → Option PyStr
  | [] => none
  | c :: r => if c = rbrace then some r else afterBrace r

/-- local(tag): when the tag starts with an opening brace, everything
after the first closing brace, else the tag itself.  Element tags always
contain the closing brace when they start with the opening one; the
total model returns the empty string otherwise. -/
def localTag (t : PyStr) : PyStr :=
  match t with
  | c :: r => if c = lbrace then (afterBrace r).getD [] else c :: r
  | [] => []

/-- find_first: the first direct child whose local tag equals the name. -/
def findFirst (e : Elem) (name : PyStr) : Option Elem :=
  e.children.find? (fun c => localTag c.tag == name)

/-- find_all: every direct child whose local tag equals the name. -/
def findAll (e : Elem) (name : PyStr) : List Elem :=
  e.children.filter (fun c => localTag c.tag == name)

/-- find_text: the stripped text of the first matching child when that
text is truthy, else the (always defaulted) empty string. -/
def findText (e : Elem) (name : PyStr) : PyStr :=
  match findFirst e name with
  | some n =>
      match n.text with
      | some tx => if tx = [] then [] else pyStrip tx
      | none => []
  | none => []

/-- find_text_lang: the stripped text of the first child with the local
name whose lang attribute is absent or equals the requested code, else
the empty default.  The parent-is-none branch of the source never fires
at the embedded call sites, which all pass an element in hand. -/
def findTextLang (e : Elem) (name lang : PyStr) : PyStr :=
  match e.children.find? (fun c =>
      localTag c.tag == name &&
        (match c.get "lang".data with
         | none => true
         | some v => v == lang)) with
  | some c => pyStrip ((c.text).getD [])
  | none => []

/- ### ElementTree exact-tag lookups (find and findall with tag paths) -/

/-- The direct children with exactly the given tag, no namespace
stripping, as ElementTree findall with a plain tag name. -/
def etChildren (e : Elem) (name : PyStr) : List Elem :=
  e.children.filter (fun c => c.tag == name)

/-- ElementTree findall with a slash-separated path, given as the list
of its segments: children matching the first segment, then their
children matching the next, in document order. -/
def etFindallPath (e : Elem) : List PyStr → List Elem
  | [] => [e]
  | n :: rest => (etChildren e n).flatMap (fun c => etFindallPath c rest)

/-- ElementTree find with a path: the first match of findall. -/
def etFindPath (e : Elem) (path : List PyStr) : Option Elem :=
  (etFindallPath e path).head?

mutual

/-- ElementTree findall of a dot-slash-slash path: every descendant
(excluding the node itself) with exactly the given tag, in document
order. -/
def etDescendants (e : Elem) (name : PyStr) : List Elem :=
  match e with
  | .mk _ _ _ cs => etDescendantsList cs name

def etDescendantsList (cs : List Elem) (name : PyStr) : List Elem :=
  match cs with
  | [] => []
  | c :: rest =>
      (if c.tag == name then [c] else []) ++ etDescendants c name
        ++ etDescendantsList rest name

end

mutual

/-- Wrap every tag of a tree in a namespace: an opening brace, the
namespace, a closing brace, then the original tag. -/
def wrapNs (ns : PyStr) (e : Elem) : Elem :=
  match e with
  | .mk t a tx cs => .mk (lbrace :: (ns ++ rbrace :: t)) a tx (wrapNsList ns cs)

def wrapNsList (ns : PyStr) (cs : List Elem) : List Elem :=
  match cs with
  | [] => []
  | c :: rest => wrapNs ns c :: wrapNsList ns rest

end

/-- text.strip() if node is not None and node.text else empty: the
pattern used for DisorderType, DisorderGroup, association type and
status, and gene type nodes. -/
def nodeTextStrip (o : Option Elem) : PyStr :=
  match o with
  | some n =>
      match n.text with
      | some tx => if tx = [] then [] else pyStrip tx
      | none => []
  | none => []

/- ### String-valued dictionaries for flat rows -/

/-- A row or reference dictionary: insertion-ordered association list
with unique keys and replace-in-place assignment, as a Python dict of
string keys and values. -/
abbrev PyDict := List (PyStr × PyStr)

def pdGet : PyDict → PyStr → Option PyStr
  | [], _ => none
  | p :: d, k => if p.1 = k then some p.2 else pdGet d k

def pdSet : PyDict → PyStr → PyStr → PyDict
  | [], k, v => [(k, v)]
  | p :: d, k, v => if p.1 = k then (k, v) :: d else p :: pdSet d k v

/-- row.update(other): assign every binding of the other dict in order. -/
def pdUpdate (d other : PyDict) : PyDict :=
  other.foldl (fun acc p => pdSet acc p.1 p.2) d

theorem pdGet_pdSet_self (d : PyDict) (k : PyStr) (v : PyStr) :
    pdGet (pdSet d k v) k = some v := by
  induction d with
  | nil => simp [pdSet, pdGet]
  | cons p d ih =>
      by_cases h : p.1 = k
      · simp [pdSet, pdGet, h]
      · simp [pdSet, pdGet, h, ih]

theorem pdGet_pdSet_ne (d : PyDict) (k k' : PyStr) (v : PyStr)
    (h : k' ≠ k) : pdGet (pdSet d k v) k' = pdGet d k' := by
  induction d with
  | nil => simp [pdSet, pdGet, Ne.symm h]
  | cons p d ih =>
      by_cases hp : p.1 = k
      · subst hp
        simp [pdSet, pdGet, Ne.symm h]
      · simp only [pdSet, if_neg hp, pdGet]
        by_cases hp' : p.1 = k'
        · simp [hp']
        · simp [hp', ih]

theorem pdSet_ne_nil (d : PyDict) (k : PyStr) (v : PyStr) :
    pdSet d k v ≠ [] := by
  cases d with
  | nil => simp [pdSet]
  | cons p d =>
      by_cases h : p.1 = k <;> simp [pdSet, h]

/-- pdUpdate does not change the value of a key none of the other
bindings uses. -/
theorem pdGet_pdUpdate_ne (d other : PyDict) (k : PyStr)
    (h : ∀ p ∈ other, p.1 ≠ k) : pdGet (pdUpdate d other) k = pdGet d k := by
  induction other generalizing d with
  | nil => rfl
  | cons p ps ih =>
      have step : pdUpdate d (p :: ps) = pdUpdate (pdSet d p.1 p.2) ps := rfl
      rw [step, ih (pdSet d p.1 p.2) (fun q hq => h q (by simp [hq]))]
      exact pdGet_pdSet_ne d p.1 k p.2 (fun hk => h p (by simp) hk.symm)

/-- The keys a pdSet result can have: the old keys plus the new key. -/
theorem pdSet_keys (d : PyDict) (k : PyStr) (v : PyStr) :
    ∀ p ∈ pdSet d k v, p.1 = k ∨ p.1 ∈ d.map Prod.fst := by
  induction d with
  | nil =>
      intro p hp
      simp only [pdSet, List.mem_singleton] at hp
      subst hp
      exact Or.inl rfl
  | cons q d ih =>
      intro p hp
      by_cases h : q.1 = k
      · simp only [pdSet, if_pos h] at hp
        rcases List.mem_cons.mp hp with heq | hmem
        · subst heq
          exact Or.inl rfl
        · refine Or.inr ?_
          simp only [List.map_cons, List.mem_cons]
          exact Or.inr (List.mem_map_of_mem Prod.fst hmem)
      · simp only [pdSet, if_neg h] at hp
        rcases List.mem_cons.mp hp with heq | hmem
        · subst heq
          refine Or.inr ?_
          simp [List.map_cons]
        · rcases ih p hmem with h1 | h1
          · exact Or.inl h1
          · refine Or.inr ?_
            simp only [List.map_cons, List.mem_cons]
            exact Or.inr h1

/- ### The gene-association flattener (parse_orpha_xml6.py) -/

/-- The synonym texts of a gene: stripped text of each SynonymList/
Synonym child whose text is truthy. -/
def geneSynonyms (g : Elem) : List PyStr :=
  (etFindallPath g ["SynonymList".data, "Synonym".data]).filterMap (fun syn =>
    match syn.text with
    | some tx => if tx = [] then none else some (pyStrip tx)
    | none => none)

/-- parse_external_references: source-to-reference dict over the
ExternalReferenceList/ExternalReference children whose source and
reference are both non-empty. -/
def parseExternalReferences (g : Elem) : PyDict :=
  (etFindallPath g ["ExternalReferenceList".data, "ExternalReference".data]).foldl
    (fun refs ref =>
      let source := findText ref "Source".data
      let reference := findText ref "Reference".data
      if source ≠ [] ∧ reference ≠ [] then pdSet refs source reference else refs)
    []

/-- parse_gene on an element in hand (the caller checks for a missing
Gene child before calling, mirroring the None check of the source). -/
def parseGene (g : Elem) : PyDict :=
  let gene : PyDict :=
    [("GeneID".data, g.getD "id".data []),
     ("GeneName".data, findTextLang g "Name".data "en".data),
     ("GeneSymbol".data, findText g "Symbol".data)]
  let gene := pdSet gene "GeneSynonyms".data (joinSemi (geneSynonyms g))
  let gene := pdSet gene "GeneType".data
    (nodeTextStrip (etFindPath g ["GeneType".data, "Name".data]))
  let gene := (parseExternalReferences g).foldl
    (fun acc p => pdSet acc ("Ref_".data ++ p.1) p.2) gene
  match etFindPath g ["LocusList".data, "Locus".data] with
  | some locus =>
      pdSet (pdSet gene "GeneLocus".data (findText locus "GeneLocus".data))
        "LocusKey".data (findText locus "LocusKey".data)
  | none => gene

/-- The scalar disorder fields captured once per Disorder element. -/
def disorderInfo6 (d : Elem) : PyDict :=
  [("DisorderID".data, d.getD "id".data []),
   ("OrphaCode".data, findText d "OrphaCode".data),
   ("DisorderName".data, findTextLang d "Name".data "en".data),
   ("ExpertLink".data, findTextLang d "ExpertLink".data "en".data),
   ("DisorderType".data,
     nodeTextStrip (etFindPath d ["DisorderType".data, "Name".data])),
   ("DisorderGroup".data,
     nodeTextStrip (etFindPath d ["DisorderGroup".data, "Name".data]))]

/-- One loop iteration of parse_disorder: the association fields are
assigned onto a copy of the disorder info, and a row is produced exactly
when the association has a Gene child (whose parsed dict, always
non-empty, is truthy). -/
def geneAssocRow (info : PyDict) (assoc : Elem) : Option PyDict :=
  let row := pdSet info "SourceOfValidation".data
    (findText assoc "SourceOfValidation".data)
  let row := pdSet row "AssociationType".data
    (nodeTextStrip (etFindPath assoc
      ["DisorderGeneAssociationType".data, "Name".data]))
  let row := pdSet row "AssociationStatus".data
    (nodeTextStrip (etFindPath assoc
      ["DisorderGeneAssociationStatus".data, "Name".data]))
  match etFindPath assoc ["Gene".data] with
  | some g =>
      let gene := parseGene g
      if gene ≠ [] then some (pdUpdate row gene) else none
  | none => none

/-- parse_disorder: each association contributes at most one row, so the
append loop is the filterMap of the per-association step over the
DisorderGeneAssociationList/DisorderGeneAssociation children. -/
def parseDisorder6 (d : Elem) : List PyDict :=
  (etFindallPath d
    ["DisorderGeneAssociationList".data, "DisorderGeneAssociation".data]).filterMap
    (geneAssocRow (disorderInfo6 d))

/- ### Lemmas for claim C4 -/

theorem pdSet_keys_mem (d : PyDict) (k v : PyStr) (x : PyStr)
    (hx : x ∈ (pdSet d k v).map Prod.fst) : x = k ∨ x ∈ d.map Prod.fst := by
  rcases List.mem_map.mp hx with ⟨p, hp, rfl⟩
  exact pdSet_keys d k v p hp

theorem pdFoldSet_ne_nil (l : List (PyStr × PyStr)) (acc : PyDict)
    (f : PyStr → PyStr) (hacc : acc ≠ []) :
    l.foldl (fun a q => pdSet a (f q.1) q.2) acc ≠ [] := by
  induction l generalizing acc with
  | nil => exact hacc
  | cons q qs ih => exact ih _ (pdSet_ne_nil _ _ _)

theorem pdFoldSet_keys (l : List (PyStr × PyStr)) (acc : PyDict)
    (f : PyStr → PyStr) :
    ∀ p ∈ l.foldl (fun a q => pdSet a (f q.1) q.2) acc,
      (∃ s, p.1 = f s) ∨ p.1 ∈ acc.map Prod.fst := by
  induction l generalizing acc with
  | nil =>
      intro p hp
      exact Or.inr (List.mem_map_of_mem Prod.fst hp)
  | cons q qs ih =>
      intro p hp
      rcases ih (pdSet acc (f q.1) q.2) p hp with h1 | h1
      · exact Or.inl h1
      · rcases pdSet_keys_mem acc (f q.1) q.2 p.1 h1 with h2 | h2
        · exact Or.inl ⟨q.1, h2⟩
        · exact Or.inr h2

theorem parseGene_ne_nil (g : Elem) : parseGene g ≠ [] := by
  unfold parseGene
  have base : ∀ (x : PyDict), x ≠ [] →
      (parseExternalReferences g).foldl
        (fun acc p => pdSet acc ("Ref_".data ++ p.1) p.2) x ≠ [] :=
    fun x hx => pdFoldSet_ne_nil _ x _ hx
  cases hloc : etFindPath g ["LocusList".data, "Locus".data] with
  | some locus => exact pdSet_ne_nil _ _ _
  | none => exact base _ (pdSet_ne_nil _ _ _)

/-- The fixed keys parse_gene can produce besides the per-source
reference columns. -/
def geneFixedKeys : List PyStr :=
  ["GeneID".data, "GeneName".data, "GeneSymbol".data, "GeneSynonyms".data,
   "GeneType".data, "GeneLocus".data, "LocusKey".data]

theorem parseGene_keys (g : Elem) :
    ∀ p ∈ parseGene g, p.1 ∈ geneFixedKeys ∨ ∃ s, p.1 = "Ref_".data ++ s := by
  intro p hp
  unfold parseGene at hp
  have base3 : ∀ x, x ∈ (pdSet (pdSet
      [("GeneID".data, g.getD "id".data []),
       ("GeneName".data, findTextLang g "Name".data "en".data),
       ("GeneSymbol".data, findText g "Symbol".data)]
      "GeneSynonyms".data (joinSemi (geneSynonyms g)))
      "GeneType".data
      (nodeTextStrip (etFindPath g ["GeneType".data, "Name".data]))).map Prod.fst →
      x ∈ geneFixedKeys := by
    intro x hx
    rcases pdSet_keys_mem _ _ _ _ hx with h1 | h1
    · subst h1; simp [geneFixedKeys]
    · rcases pdSet_keys_mem _ _ _ _ h1 with h2 | h2
      · subst h2; simp [geneFixedKeys]
      · simp only [List.map_cons, List.map_nil, List.mem_cons,
          List.not_mem_nil, or_false] at h2
        rcases h2 with h3 | h3 | h3 <;> (subst h3; simp [geneFixedKeys])
  have hfold : ∀ x, x ∈ ((parseExternalReferences g).foldl
      (fun acc q => pdSet acc ("Ref_".data ++ q.1) q.2)
      (pdSet (pdSet
        [("GeneID".data, g.getD "id".data []),
         ("GeneName".data, findTextLang g "Name".data "en".data),
         ("GeneSymbol".data, findText g "Symbol".data)]
        "GeneSynonyms".data (joinSemi (geneSynonyms g)))
        "GeneType".data
        (nodeTextStrip (etFindPath g ["GeneType".data, "Name".data])))) →
      x.1 ∈ geneFixedKeys ∨ ∃ s, x.1 = "Ref_".data ++ s := by
    intro x hx
    rcases pdFoldSet_keys _ _ _ x hx with h1 | h1
    · exact Or.inr h1
    · exact Or.inl (base3 _ h1)
  cases hloc : etFindPath g ["LocusList".data, "Locus".data] with
  | some locus =>
      rw [hloc] at hp
      rcases pdSet_keys _ _ _ p hp with h1 | h1
      · rw [h1]
        exact Or.inl (by simp [geneFixedKeys])
      · rcases pdSet_keys_mem _ _ _ _ h1 with h2 | h2
        · rw [h2]
          exact Or.inl (by simp [geneFixedKeys])
        · rcases List.mem_map.mp h2 with ⟨q, hq, hq1⟩
          rcases hfold q hq with h3 | h3
          · exact Or.inl (hq1 ▸ h3)
          · exact Or.inr (hq1 ▸ h3)
  | none =>
      rw [hloc] at hp
      exact hfold p hp

/-- The six scalar disorder fields repeated on every association row. -/
def sixDisorderFields : List PyStr :=
  ["DisorderID".data, "OrphaCode".data, "DisorderName".data,
   "ExpertLink".data, "DisorderType".data, "DisorderGroup".data]

theorem ref_key_ne (s k : PyStr) (hk : k ∈ sixDisorderFields) :
    "Ref_".data ++ s ≠ k := by
  intro heq
  have hh : ("Ref_".data ++ s).head? = k.head? := congrArg List.head? heq
  have hR : ("Ref_".data ++ s).head? = some 'R' := rfl
  rw [hR] at hh
  fin_cases hk <;> exact absurd hh (by decide)

theorem length_filterMap_isSome {α β : Type} (f : α → Option β) (l : List α) :
    (l.filterMap f).length = (l.filter (fun a => (f a).isSome)).length := by
  induction l with
  | nil => rfl
  | cons x xs ih =>
      cases hf : f x <;>
        simp [List.filterMap_cons, List.filter_cons, hf, ih]

theorem geneAssocRow_isSome (info : PyDict) (a : Elem) :
    (geneAssocRow info a).isSome = (etFindPath a ["Gene".data]).isSome := by
  unfold geneAssocRow
  cases hg : etFindPath a ["Gene".data] with
  | some g => simp [parseGene_ne_nil g]
  | none => simp

/-- Claim C4: each Disorder yields exactly one row per nested
DisorderGeneAssociation whose Gene child is present, each row repeating
the six scalar disorder fields identically; zero qualifying associations
yield zero rows. -/
theorem gene_association_expansion (d : Elem) :
    (parseDisorder6 d).length =
      ((etFindallPath d ["DisorderGeneAssociationList".data,
          "DisorderGeneAssociation".data]).filter
        (fun a => (etFindPath a ["Gene".data]).isSome)).length ∧
    (∀ row ∈ parseDisorder6 d, ∀ k ∈ sixDisorderFields,
      pdGet row k = pdGet (disorderInfo6 d) k) := by
  constructor
  · have hfun : (fun a => (geneAssocRow (disorderInfo6 d) a).isSome)
        = (fun a => (etFindPath a ["Gene".data]).isSome) :=
      funext (geneAssocRow_isSome (disorderInfo6 d))
    rw [parseDisorder6, length_filterMap_isSome, hfun]
  · intro row hrow k hk
    rcases List.mem_filterMap.mp hrow with ⟨assoc, _, hrow_eq⟩
    unfold geneAssocRow at hrow_eq
    cases hg : etFindPath assoc ["Gene".data] with
    | none =>
        rw [hg] at hrow_eq
        exact absurd hrow_eq (by simp)
    | some g =>
        rw [hg] at hrow_eq
        dsimp only at hrow_eq
        rw [if_pos (parseGene_ne_nil g)] at hrow_eq
        have hrow2 := Option.some.inj hrow_eq
        rw [← hrow2]
        rw [pdGet_pdUpdate_ne]
        · have h1 : k ≠ "AssociationStatus".data :=
            (by decide : ∀ k' ∈ sixDisorderFields,
              k' ≠ "AssociationStatus".data) k hk
          have h2 : k ≠ "AssociationType".data :=
            (by decide : ∀ k' ∈ sixDisorderFields,
              k' ≠ "AssociationType".data) k hk
          have h3 : k ≠ "SourceOfValidation".data :=
            (by decide : ∀ k' ∈ sixDisorderFields,
              k' ≠ "SourceOfValidation".data) k hk
          rw [pdGet_pdSet_ne _ _ _ _ h1, pdGet_pdSet_ne _ _ _ _ h2,
            pdGet_pdSet_ne _ _ _ _ h3]
        · intro p hp
          rcases parseGene_keys g p hp with h1 | h1
          · exact (by decide : ∀ x ∈ geneFixedKeys,
              ∀ k' ∈ sixDisorderFields, x ≠ k') p.1 h1 k hk
          · obtain ⟨s, hs⟩ := h1
            rw [hs]
            exact ref_key_ne s k hk

/-- A concrete disorder with three associations, two of which carry a
Gene child. -/
def c4Gene : Elem :=
  .mk "Gene".data [("id".data, "123".data)] none
    [.mk "Symbol".data [] (some "KIT".data) []]

def c4AssocWithGene : Elem :=
  .mk "DisorderGeneAssociation".data [] none [c4Gene]

def c4AssocNoGene : Elem :=
  .mk "DisorderGeneAssociation".data [] none []

def c4Disorder : Elem :=
  .mk "Disorder".data [("id".data, "17601".data)] none
    [.mk "OrphaCode".data [] (some "166024".data) [],
     .mk "Name".data [("lang".data, "en".data)] (some "Some disease".data) [],
     .mk "DisorderGeneAssociationList".data [] none
       [c4AssocWithGene, c4AssocNoGene, c4AssocWithGene]]

theorem gene_association_expansion_witness :
    (parseDisorder6 c4Disorder).length =
      ((etFindallPath c4Disorder ["DisorderGeneAssociationList".data,
          "DisorderGeneAssociation".data]).filter
        (fun a => (etFindPath a ["Gene".data]).isSome)).length ∧
    pdGet ((parseDisorder6 c4Disorder).headD []) "OrphaCode".data =
      pdGet (disorderInfo6 c4Disorder) "OrphaCode".data := by
  refine ⟨(gene_association_expansion c4Disorder).1, ?_⟩
  exact (gene_association_expansion c4Disorder).2
    ((parseDisorder6 c4Disorder).headD []) (by decide)
    "OrphaCode".data (by decide)

/- ### The single-entity flattener (parse_orpha_xml1.py) -/

/-- get_child_text without a language: the stripped text of the first
child with exactly the given tag. -/
def getChildText (p : Elem) (tag : PyStr) : PyStr :=
  match (etChildren p tag).head? with
  | some c => pyStrip ((c.text).getD [])
  | none => []

/-- get_child_text with a language: the stripped text of the first child
with exactly the given tag whose lang attribute equals the code. -/
def getChildTextLang (p : Elem) (tag lang : PyStr) : PyStr :=
  match (etChildren p tag).find? (fun c => c.get "lang".data == some lang) with
  | some c => pyStrip ((c.text).getD [])
  | none => []

/-- The synonym texts of a disorder in the single-entity parser. -/
def disorderSynonyms (elem : Elem) : List PyStr :=
  (etFindallPath elem ["SynonymList".data, "Synonym".data]).filterMap (fun s =>
    match s.text with
    | some tx => if tx = [] then none else some (pyStrip tx)
    | none => none)

/-- The source-colon-reference pairs kept when either side is non-empty. -/
def externalRefPairs (elem : Elem) : List PyStr :=
  (etFindallPath elem
    ["ExternalReferenceList".data, "ExternalReference".data]).filterMap (fun ext =>
      let source := getChildText ext "Source".data
      let ref := getChildText ext "Reference".data
      if source ≠ [] ∨ ref ≠ [] then some (source ++ ':' :: ref) else none)

/-- The definition fallback chain: the structured text section contents
when present and truthy, else the auto-generated info, else empty. -/
def definitionOf (elem : Elem) : PyStr :=
  match etFindPath elem
      ["SummaryInformationList".data, "SummaryInformation".data] with
  | none => []
  | some si =>
      match etFindPath si
          ["TextSectionList".data, "TextSection".data, "Contents".data] with
      | some tsn =>
          match tsn.text with
          | some tx =>
              if tx ≠ [] then pyStrip tx
              else nodeTextStrip (etFindPath si ["TextAuto".data, "Info".data])
          | none => nodeTextStrip (etFindPath si ["TextAuto".data, "Info".data])
      | none => nodeTextStrip (etFindPath si ["TextAuto".data, "Info".data])

/-- parse_disorder of the single-entity parser: one fixed row. -/
def parseDisorder1 (elem : Elem) : PyDict :=
  [("id".data, elem.getD "id".data []),
   ("OrphaCode".data, getChildText elem "OrphaCode".data),
   ("ExpertLink".data, getChildTextLang elem "ExpertLink".data "en".data),
   ("Name".data, getChildTextLang elem "Name".data "en".data),
   ("Synonyms".data, joinSemi (disorderSynonyms elem)),
   ("DisorderType".data,
     nodeTextStrip (etFindPath elem ["DisorderType".data, "Name".data])),
   ("DisorderGroup".data,
     nodeTextStrip (etFindPath elem ["DisorderGroup".data, "Name".data])),
   ("ExternalReferences".data, joinSemi (externalRefPairs elem)),
   ("Definition".data, definitionOf elem)]

/-- The typed error of a conversion run. -/
inductive ConvErr where
  | noDisorderElements
  deriving DecidableEq, Repr

/-- convert of the single-entity parser on an already-parsed root: find
every Disorder descendant, fail when there are none, else write one row
per disorder in order. -/
def convert1 (root : Elem) : Except ConvErr (List PyDict) :=
  match etDescendants root "Disorder".data with
  | [] => Except.error ConvErr.noDisorderElements
  | d0 :: ds =>
      Except.ok ((d0 :: ds).foldl (fun acc d2 => acc ++ [parseDisorder1 d2]) [])

theorem foldl_append_length {α β : Type} (g : α → β) (l : List α)
    (acc : List β) :
    (l.foldl (fun a x => a ++ [g x]) acc).length = acc.length + l.length := by
  induction l generalizing acc with
  | nil => simp
  | cons x xs ih =>
      simp only [List.foldl_cons, ih]
      simp [List.length_append]
      omega

/-- Claim C6: exactly one output row per Disorder node found in the
document, and zero Disorder nodes raise the typed structural-fatal error
instead of producing an output. -/
theorem single_entity_rows (root : Elem) :
    (etDescendants root "Disorder".data = [] →
      convert1 root = Except.error ConvErr.noDisorderElements) ∧
    (∀ rows, convert1 root = Except.ok rows →
      rows.length = (etDescendants root "Disorder".data).length) := by
  constructor
  · intro h
    simp [convert1, h]
  · intro rows h
    unfold convert1 at h
    cases hd : etDescendants root "Disorder".data with
    | nil =>
        rw [hd] at h
        exact absurd h (by simp)
    | cons d0 ds =>
        rw [hd] at h
        have heq := Except.ok.inj h
        rw [← heq, foldl_append_length parseDisorder1]
        simp

def c6Empty : Elem :=
  .mk "JDBOR".data [] none [.mk "DisorderList".data [] none []]

def c6Dis : Elem := .mk "Disorder".data [] none []

def c6Two : Elem :=
  .mk "JDBOR".data [] none [.mk "DisorderList".data [] none [c6Dis, c6Dis]]

def c6Rows : List PyDict := [parseDisorder1 c6Dis, parseDisorder1 c6Dis]

theorem single_entity_rows_witness :
    convert1 c6Empty = Except.error ConvErr.noDisorderElements ∧
    c6Rows.length = (etDescendants c6Two "Disorder".data).length :=
  ⟨(single_entity_rows c6Empty).1 (by rfl),
   (single_entity_rows c6Two).2 c6Rows (by rfl)⟩

/- ### Claim C8: namespace handling of child lookups -/

theorem wrapNsList_eq_map (ns : PyStr) (cs : List Elem) :
    wrapNsList ns cs = cs.map (wrapNs ns) := by
  induction cs with
  | nil => rfl
  | cons c rest ih => simp [wrapNsList, ih]

theorem wrapNs_children (ns : PyStr) (e : Elem) :
    (wrapNs ns e).children = e.children.map (wrapNs ns) := by
  cases e
  simp [wrapNs, Elem.children, wrapNsList_eq_map]

theorem wrapNs_tag (ns : PyStr) (e : Elem) :
    (wrapNs ns e).tag = lbrace :: (ns ++ rbrace :: e.tag) := by
  cases e
  rfl

theorem wrapNs_text (ns : PyStr) (e : Elem) : (wrapNs ns e).text = e.text := by
  cases e
  rfl

theorem wrapNs_get (ns : PyStr) (e : Elem) (k : PyStr) :
    (wrapNs ns e).get k = e.get k := by
  cases e
  rfl

theorem afterBrace_append (ns t : PyStr) (h : rbrace ∉ ns) :
    afterBrace (ns ++ rbrace :: t) = some t := by
  induction ns with
  | nil => simp [afterBrace]
  | cons c cs ih =>
      have hc : ¬ c = rbrace := fun heq => h (by simp [heq])
      simp only [List.cons_append, afterBrace, if_neg hc]
      exact ih (fun hm => h (by simp [hm]))

theorem localTag_wrap (ns t : PyStr) (h : rbrace ∉ ns) :
    localTag (lbrace :: (ns ++ rbrace :: t)) = t := by
  simp [localTag, afterBrace_append ns t h]

theorem localTag_plain (t : PyStr) (h : t.head? ≠ some lbrace) :
    localTag t = t := by
  cases t with
  | nil => rfl
  | cons c r =>
      have hc : ¬ c = lbrace := fun heq => h (by simp [heq])
      simp [localTag, hc]

theorem find?_map_congr {α β : Type} (f : α → β) (p : β → Bool) (q : α → Bool)
    (l : List α) (h : ∀ a ∈ l, p (f a) = q a) :
    (l.map f).find? p = (l.find? q).map f := by
  induction l with
  | nil => rfl
  | cons x xs ih =>
      simp only [List.map_cons, List.find?_cons]
      rw [h x (by simp)]
      cases hq : q x with
      | true => rfl
      | false => exact ih (fun a ha => h a (by simp [ha]))

theorem filter_map_congr {α β : Type} (f : α → β) (p : β → Bool) (q : α → Bool)
    (l : List α) (h : ∀ a ∈ l, p (f a) = q a) :
    (l.map f).filter p = (l.filter q).map f := by
  induction l with
  | nil => rfl
  | cons x xs ih =>
      simp only [List.map_cons, List.filter_cons]
      rw [h x (by simp)]
      cases hq : q x <;>
        simp [ih (fun a ha => h a (by simp [ha]))]

theorem filter_map_eq_nil {α β : Type} (f : α → β) (p : β → Bool) (l : List α)
    (h : ∀ a ∈ l, p (f a) = false) : (l.map f).filter p = [] := by
  induction l with
  | nil => rfl
  | cons x xs ih =>
      simp [List.filter_cons, h x (by simp),
        ih (fun a ha => h a (by simp [ha]))]

/-- Claim C8 (amended): the tree-navigation utility lookups (find_first,
find_all, find_text, find_text_lang) are namespace-insensitive: wrapping
every tag of a document in a namespace changes none of their results.
The raw ElementTree lookups used alongside them compare the whole tag,
so after wrapping an exact-tag child lookup finds nothing. -/
theorem tree_utility_namespace_insensitive (ns : PyStr) (e : Elem)
    (name lang : PyStr) (hns : rbrace ∉ ns)
    (he : ∀ c ∈ e.children, c.tag.head? ≠ some lbrace) :
    findFirst (wrapNs ns e) name = (findFirst e name).map (wrapNs ns) ∧
    findAll (wrapNs ns e) name = (findAll e name).map (wrapNs ns) ∧
    findText (wrapNs ns e) name = findText e name ∧
    findTextLang (wrapNs ns e) name lang = findTextLang e name lang ∧
    (name.head? ≠ some lbrace → etChildren (wrapNs ns e) name = []) := by
  have hloc : ∀ c ∈ e.children, localTag (wrapNs ns c).tag = localTag c.tag := by
    intro c hc
    rw [wrapNs_tag, localTag_wrap ns _ hns, localTag_plain _ (he c hc)]
  have h1 : findFirst (wrapNs ns e) name = (findFirst e name).map (wrapNs ns) := by
    unfold findFirst
    rw [wrapNs_children]
    exact find?_map_congr (wrapNs ns) _ _ e.children
      (fun c hc => by rw [hloc c hc])
  refine ⟨h1, ?_, ?_, ?_, ?_⟩
  · unfold findAll
    rw [wrapNs_children]
    exact filter_map_congr (wrapNs ns) _ _ e.children
      (fun c hc => by rw [hloc c hc])
  · unfold findText
    rw [h1]
    cases hf : findFirst e name with
    | none => rfl
    | some n => simp [wrapNs_text]
  · unfold findTextLang
    rw [wrapNs_children]
    rw [find?_map_congr (wrapNs ns) _ _ e.children
      (fun c hc => by rw [hloc c hc, wrapNs_get])]
    cases hf : e.children.find? (fun c =>
        localTag c.tag == name &&
          (match c.get "lang".data with
           | none => true
           | some v => v == lang)) with
    | none => rfl
    | some c => simp [wrapNs_text]
  · intro hname
    unfold etChildren
    rw [wrapNs_children]
    refine filter_map_eq_nil (wrapNs ns) _ e.children (fun c hc => ?_)
    rw [wrapNs_tag, beq_eq_false_iff_ne]
    intro heq
    exact hname (by rw [← heq]; rfl)

/-- A namespaced and a plain copy of the same single-entity record. -/
def c8Plain : Elem :=
  .mk "Disorder".data [] none
    [.mk "OrphaCode".data [] (some "166024".data) []]

def c8Ns : Elem := wrapNs "ns".data c8Plain

/-- Claim C8 counterexample: get_child_text in the single-entity parser
looks children up by exact tag, so adding a namespace prefix changes
which children it finds and changes the emitted row. -/
theorem namespace_lookup_counterexample :
    getChildText c8Plain "OrphaCode".data = "166024".data ∧
    getChildText c8Ns "OrphaCode".data = [] ∧
    localTag ((c8Ns.children.headD c8Ns).tag) =
      localTag ((c8Plain.children.headD c8Plain).tag) ∧
    pdGet (parseDisorder1 c8Plain) "OrphaCode".data = some "166024".data ∧
    pdGet (parseDisorder1 c8Ns) "OrphaCode".data = some [] := by
  refine ⟨by decide, by decide, by decide, by decide, by decide⟩

theorem tree_utility_namespace_insensitive_witness :
    findText (wrapNs "ns".data c8Plain) "OrphaCode".data =
      findText c8Plain "OrphaCode".data ∧
    etChildren (wrapNs "ns".data c8Plain) "OrphaCode".data = [] := by
  obtain ⟨_, _, h3, _, h5⟩ := tree_utility_namespace_insensitive "ns".data
    c8Plain "OrphaCode".data "en".data (by decide) (by decide)
  exact ⟨h3, h5 (by decide)⟩

/- ### The streaming link parser (parse_orpha_xml4.py) -/

/-- normalize_hp: replace underscores by colons and upper-case, leaving
the falsy empty string unchanged. -/
def normalizeHp (hp : PyStr) : PyStr :=
  if hp = [] then hp
  else (hp.map (fun c => if c = '_' then ':' else c)).map Char.toUpper

/-- One emitted edge row. -/
structure LinkRow where
  start_orpha_id : PyStr
  end_hp_id : PyStr
  frequency : PyStr
  deriving DecidableEq, Repr

/-- The body of the streaming loop for one association element: resolve
the source id under the Disorder child (OrphaNumber, else OrphaCode),
the target id under the HPO child (HPOId, else HPO_ID, else Id, else
ID), the frequency under Frequency else HPOFrequency (Name, else the
stripped block text), and emit a row only when source and target are
both truthy. -/
def linkRowOf (e : Elem) : Option LinkRow :=
  let orpha : Option PyStr :=
    match findFirst e "Disorder".data with
    | some dis =>
        some (pyOr (findText dis "OrphaNumber".data)
          (findText dis "OrphaCode".data))
    | none => none
  let hpId : Option PyStr :=
    match findFirst e "HPO".data with
    | some hb =>
        some (pyOr (findText hb "HPOId".data)
          (pyOr (findText hb "HPO_ID".data)
            (pyOr (findText hb "Id".data) (findText hb "ID".data))))
    | none => none
  let freqBlock : Option Elem :=
    match findFirst e "Frequency".data with
    | some fb =>
        if fb.children.isEmpty then findFirst e "HPOFrequency".data
        else some fb
    | none => findFirst e "HPOFrequency".data
  let freq : Option PyStr :=
    match freqBlock with
    | some fb =>
        some (pyOr (findText fb "Name".data) (pyStrip ((fb.text).getD [])))
    | none => none
  match orpha, hpId with
  | some o, some h =>
      if o ≠ [] ∧ h ≠ [] then
        some { start_orpha_id := "ORPHA:".data ++ o,
               end_hp_id := normalizeHp h,
               frequency := freq.getD [] }
      else none
  | some _, none => none
  | none, _ => none

/-- The source identifier in the words of the spec: tried as OrphaNumber,
else OrphaCode, under the Disorder child; empty when unresolvable. -/
def specSourceId (e : Elem) : PyStr :=
  match findFirst e "Disorder".data with
  | some dis =>
      pyOr (findText dis "OrphaNumber".data) (findText dis "OrphaCode".data)
  | none => []

/-- The target identifier in the words of the spec: tried as HPOId, else
HPO_ID, else Id, else ID, under the HPO child; empty when unresolvable. -/
def specTargetId (e : Elem) : PyStr :=
  match findFirst e "HPO".data with
  | some hb =>
      pyOr (findText hb "HPOId".data)
        (pyOr (findText hb "HPO_ID".data)
          (pyOr (findText hb "Id".data) (findText hb "ID".data)))
  | none => []

/-- The resolved frequency qualifier, or the empty string when none
resolves.  The or-chain of the source tests Python element truthiness,
which counts children: a Frequency element without children is passed
over in favour of the HPOFrequency lookup, whose result (even a
childless element) then faces only an is-not-None test. -/
def specFrequency (e : Elem) : PyStr :=
  match (match findFirst e "Frequency".data with
         | some fb =>
             if fb.children.isEmpty then findFirst e "HPOFrequency".data
             else some fb
         | none => findFirst e "HPOFrequency".data) with
  | some fb => pyOr (findText fb "Name".data) (pyStrip ((fb.text).getD []))
  | none => []

/-- The loop body written against the spec-side accessors: it agrees
with the embedded body on every element. -/
theorem linkRowOf_eq (e : Elem) :
    linkRowOf e =
      if specSourceId e ≠ [] ∧ specTargetId e ≠ [] then
        some { start_orpha_id := "ORPHA:".data ++ specSourceId e,
               end_hp_id := normalizeHp (specTargetId e),
               frequency := specFrequency e }
      else none := by
  unfold linkRowOf specSourceId specTargetId specFrequency
  cases hd : findFirst e "Disorder".data with
  | none => simp
  | some dis =>
      cases hh : findFirst e "HPO".data with
      | none => simp
      | some hb =>
          cases hf : findFirst e "Frequency".data with
          | some fb =>
              cases hc : fb.children.isEmpty with
              | false =>
                  simp only [if_neg (by simp [hc] : ¬ fb.children.isEmpty = true)]
                  rfl
              | true =>
                  simp only [if_pos (by simp [hc] : fb.children.isEmpty = true)]
                  cases hg : findFirst e "HPOFrequency".data with
                  | some fb2 => rfl
                  | none => rfl
          | none =>
              cases hg : findFirst e "HPOFrequency".data with
              | some fb => rfl
              | none => rfl

/-- Claim C5: a row is emitted for an association element exactly when
the source and target identifiers both resolve to non-empty text, and
the emitted row carries the ORPHA-prefixed source id, the normalized
target id, and the resolved frequency or empty string. -/
theorem streaming_link_rows (e : Elem) :
    ((linkRowOf e).isSome ↔ specSourceId e ≠ [] ∧ specTargetId e ≠ []) ∧
    (∀ r, linkRowOf e = some r →
      r.start_orpha_id = "ORPHA:".data ++ specSourceId e ∧
      r.end_hp_id = normalizeHp (specTargetId e) ∧
      r.frequency = specFrequency e) := by
  constructor
  · rw [linkRowOf_eq e]
    by_cases hc : specSourceId e ≠ [] ∧ specTargetId e ≠ []
    · rw [if_pos hc]
      exact iff_of_true rfl hc
    · rw [if_neg hc]
      exact iff_of_false (by simp) hc
  · intro r hr
    rw [linkRowOf_eq e] at hr
    by_cases hc : specSourceId e ≠ [] ∧ specTargetId e ≠ []
    · rw [if_pos hc] at hr
      have hr2 := (Option.some.inj hr).symm
      subst hr2
      exact ⟨rfl, rfl, rfl⟩
    · rw [if_neg hc] at hr
      exact absurd hr (by simp)

/-- A concrete association element with the documented identifiers. -/
def c5Example : Elem :=
  .mk "DisorderHPOTermAssociation".data [] none
    [.mk "Disorder".data [] none
       [.mk "OrphaNumber".data [] (some "166024".data) []],
     .mk "HPO".data [] none
       [.mk "HPOId".data [] (some "HP_0001250".data) []]]

def c5Row : LinkRow :=
  { start_orpha_id := "ORPHA:166024".data,
    end_hp_id := "HP:0001250".data,
    frequency := [] }

theorem streaming_link_rows_witness :
    (c5Row.start_orpha_id = "ORPHA:".data ++ specSourceId c5Example ∧
     c5Row.end_hp_id = normalizeHp (specTargetId c5Example) ∧
     c5Row.frequency = specFrequency c5Example) ∧
    linkRowOf c5Example = some c5Row := by
  refine ⟨(streaming_link_rows c5Example).2 c5Row (by decide), by decide⟩

/- ### Claim C9: the clear discipline of the streaming loop -/

/-- The local tag the streaming loop reacts to. -/
def hpoAssocTag : PyStr := "DisorderHPOTermAssociation".data

/-- One iteration of the streaming loop over an end event: when the
local tag matches, the body runs (possibly emitting a row) and the
element is cleared; otherwise nothing happens and the element is not
cleared, because the clear call sits inside the tag test. -/
def streamStep (e : Elem) : Option LinkRow × Bool :=
  if localTag e.tag = hpoAssocTag then (linkRowOf e, true) else (none, false)

/-- The loop over the stream of end events: the emitted rows in order,
and per element whether it was cleared. -/
def convertStream (es : List Elem) : List LinkRow × List Bool :=
  es.foldl (fun acc e =>
    let r := streamStep e
    (acc.1 ++ r.1.toList, acc.2 ++ [r.2])) ([], [])

theorem convertStream_foldl (es : List Elem) (acc : List LinkRow × List Bool) :
    es.foldl (fun acc e =>
        let r := streamStep e
        (acc.1 ++ r.1.toList, acc.2 ++ [r.2])) acc =
      (acc.1 ++ es.filterMap (fun e =>
          if localTag e.tag = hpoAssocTag then linkRowOf e else none),
       acc.2 ++ es.map (fun e => decide (localTag e.tag = hpoAssocTag))) := by
  induction es generalizing acc with
  | nil => simp
  | cons e es ih =>
      simp only [List.foldl_cons, ih, List.filterMap_cons, List.map_cons]
      unfold streamStep
      by_cases ht : localTag e.tag = hpoAssocTag
      · rw [if_pos ht, if_pos ht]
        cases hr : linkRowOf e <;>
          simp [ht, List.append_assoc]
      · rw [if_neg ht, if_neg ht]
        simp [ht, List.append_assoc]

/-- Claim C9 (amended): an element is cleared immediately after
inspection exactly when its local tag is the association tag - whether
or not it yields a row - and elements with any other tag are never
cleared, so memory release is not applied to every element. -/
theorem streaming_clear_discipline (es : List Elem) :
    (convertStream es).2 =
      es.map (fun e => decide (localTag e.tag = hpoAssocTag)) ∧
    (convertStream es).1 =
      es.filterMap (fun e =>
        if localTag e.tag = hpoAssocTag then linkRowOf e else none) := by
  unfold convertStream
  rw [convertStream_foldl es ([], [])]
  exact ⟨by simp, by simp⟩

/-- An element of another tag, and an association element that yields no
row because it has no identifiers. -/
def c9Other : Elem := .mk "HPODisorderSetStatus".data [] none []

def c9Assoc : Elem := .mk hpoAssocTag [] none []

/-- Claim C9 counterexample: in a stream of two inspected elements, the
association element is cleared even though it is skipped without a row,
but the other element is never cleared, contradicting the claim that
every element is released immediately after inspection. -/
theorem streaming_release_counterexample :
    localTag c9Other.tag ≠ hpoAssocTag ∧
    (convertStream [c9Other, c9Assoc]).1 = [] ∧
    (convertStream [c9Other, c9Assoc]).2 = [false, true] := by
  refine ⟨by decide, by decide, by decide⟩

/- ### The annotation-file reader (parse_phenotype_hpoa.py) -/

/-- One parsed annotation row: the twelve tab-separated fields. -/
structure HpoaRow where
  database_id : PyStr
  disease_name : PyStr
  qualifier : PyStr
  hpo_id : PyStr
  reference : PyStr
  evidence : PyStr
  onset : PyStr
  frequency : PyStr
  sex : PyStr
  modifier : PyStr
  aspect : PyStr
  biocuration : PyStr
  deriving DecidableEq, Repr

/-- parse_hpoa_line: the stripped line must split into exactly twelve
tab-separated fields, else the line is rejected (the ValueError path). -/
def parseHpoaLine (line : PyStr) : Option HpoaRow :=
  match pySplitAll '\t' (pyStrip line) with
  | [a, b, c, d, e, f, g, h, i, j, k, l] =>
      some ⟨a, b, c, d, e, f, g, h, i, j, k, l⟩
  | _ => none

/-- parse_metadata: fold the leading run of comment lines into a dict,
splitting each on the first colon after the marker, stripping the key
and stripping quotes off the stripped value; stop at the first
non-comment line. -/
def parseMetadataAux (acc : PyDict) : List PyStr → PyDict
  | [] => acc
  | line :: rest =>
      if line.head? = some '#' then
        parseMetadataAux
          (match splitFirstChar ':' (line.drop 1) with
           | some p => pdSet acc (pyStrip p.1) (pyStripChar '"' (pyStrip p.2))
           | none => acc) rest
      else acc

def parseMetadata (lines : List PyStr) : PyDict := parseMetadataAux [] lines

/-- The index of the first line not starting with the comment marker,
none when every line does (the loop of the source then leaves its
default zero in place). -/
def findDataStart : List PyStr → Option Nat
  | [] => none
  | l :: rest =>
      if l.head? = some '#' then (findDataStart rest).map (· + 1)
      else some 0

/-- convert of the annotation reader on the already-read lines: the
metadata dict, the header fields, the total data-line count, the count
of successfully parsed lines, and the parsed rows; none when the header
index falls outside the file (the IndexError path of the source). -/
def convertHpoa (lines : List PyStr) :
    Option (PyDict × List PyStr × Nat × Nat × List HpoaRow) :=
  let metadata := parseMetadata lines
  let dataStart := (findDataStart lines).getD 0
  match lines.get? dataStart with
  | none => none
  | some headerLine =>
      let header := pySplitAll '\t' (pyStrip headerLine)
      let res := (lines.drop (dataStart + 1)).foldl
        (fun (acc : Nat × Nat × List HpoaRow) line =>
          match parseHpoaLine line with
          | some r => (acc.1 + 1, acc.2.1 + 1, acc.2.2 ++ [r])
          | none => (acc.1 + 1, acc.2.1, acc.2.2))
        (0, 0, [])
      some (metadata, header, res.1, res.2.1, res.2.2)

/-- The key/value pairs of a run of metadata lines, in the words of the
spec: split each on the first colon after the marker. -/
def metaPairs (ls : List PyStr) : List (PyStr × PyStr) :=
  ls.filterMap (fun l =>
    (splitFirstChar ':' (l.drop 1)).map (fun p =>
      (pyStrip p.1, pyStripChar '"' (pyStrip p.2))))

theorem findDataStart_lt (ls : List PyStr) (i : Nat)
    (h : findDataStart ls = some i) : i < ls.length := by
  induction ls generalizing i with
  | nil => exact absurd h (by simp [findDataStart])
  | cons l rest ih =>
      unfold findDataStart at h
      by_cases hl : l.head? = some '#'
      · rw [if_pos hl] at h
        cases hr : findDataStart rest with
        | none => rw [hr] at h; exact absurd h (by simp)
        | some j =>
            rw [hr] at h
            have h2 : some (j + 1) = some i := h
            have h3 : i = j + 1 := (Option.some.inj h2).symm
            subst h3
            have := ih j hr
            simp only [List.length_cons]
            omega
      · rw [if_neg hl] at h
        have : i = 0 := (Option.some.inj h).symm
        subst this
        simp

theorem findDataStart_take (ls : List PyStr) (i : Nat)
    (h : findDataStart ls = some i) :
    ls.take i = ls.takeWhile (fun l => l.head? == some '#') := by
  induction ls generalizing i with
  | nil => simp
  | cons l rest ih =>
      unfold findDataStart at h
      by_cases hl : l.head? = some '#'
      · rw [if_pos hl] at h
        cases hr : findDataStart rest with
        | none => rw [hr] at h; exact absurd h (by simp)
        | some j =>
            rw [hr] at h
            have h2 : some (j + 1) = some i := h
            have h3 : i = j + 1 := (Option.some.inj h2).symm
            subst h3
            simp only [List.take_succ_cons, List.takeWhile_cons]
            rw [if_pos (by simpa using hl)]
            rw [ih j hr]
      · rw [if_neg hl] at h
        have : i = 0 := (Option.some.inj h).symm
        subst this
        simp only [List.take_zero, List.takeWhile_cons]
        rw [if_neg (by simpa using hl)]

theorem parseMetadataAux_eq (ls : List PyStr) (acc : PyDict) :
    parseMetadataAux acc ls =
      (metaPairs (ls.takeWhile (fun l => l.head? == some '#'))).foldl
        (fun d p => pdSet d p.1 p.2) acc := by
  induction ls generalizing acc with
  | nil => rfl
  | cons l rest ih =>
      unfold parseMetadataAux
      by_cases hl : l.head? = some '#'
      · rw [if_pos hl]
        simp only [List.takeWhile_cons]
        rw [if_pos (by simpa using hl)]
        cases hs : splitFirstChar ':' (l.drop 1) with
        | some p =>
            rw [List.drop_one] at hs
            rw [ih]
            simp [metaPairs, List.filterMap_cons, hs]
        | none =>
            rw [List.drop_one] at hs
            rw [ih]
            simp [metaPairs, List.filterMap_cons, hs]
      · rw [if_neg hl]
        simp only [List.takeWhile_cons]
        rw [if_neg (by simpa using hl)]
        rfl

theorem hpoaFold_counts (ls : List PyStr) (t v : Nat) (rs : List HpoaRow) :
    ls.foldl
      (fun (acc : Nat × Nat × List HpoaRow) line =>
        match parseHpoaLine line with
        | some r => (acc.1 + 1, acc.2.1 + 1, acc.2.2 ++ [r])
        | none => (acc.1 + 1, acc.2.1, acc.2.2)) (t, v, rs) =
    (t + ls.length, v + (ls.filterMap parseHpoaLine).length,
      rs ++ ls.filterMap parseHpoaLine) := by
  induction ls generalizing t v rs with
  | nil => simp
  | cons l ls ih =>
      simp only [List.foldl_cons, List.filterMap_cons]
      cases hp : parseHpoaLine l with
      | some r =>
          rw [ih]
          simp only [Prod.mk.injEq, List.length_cons, List.append_assoc,
            List.singleton_append]
          refine ⟨by omega, by omega, by trivial⟩
      | none =>
          rw [ih]
          simp only [Prod.mk.injEq, List.length_cons]
          refine ⟨by omega, by trivial⟩

/-- Claim C7: when the file has a header line (a first line without the
comment marker), the reader retains the total count of data lines and
the count of successfully parsed ones; a data line that does not split
into twelve tab-separated fields contributes no row while each
well-shaped line contributes one, so the rows are the filterMap of the
line parser over exactly the lines after the header; every line before
the header starts with the comment marker and is folded into the
metadata key/value dict by splitting on the first colon, and none of
them is among the data lines. -/
theorem annotation_reader_behavior (lines : List PyStr) (hIdx : Nat)
    (h : findDataStart lines = some hIdx) :
    ∃ md hdr total valid rows,
      convertHpoa lines = some (md, hdr, total, valid, rows) ∧
      total = (lines.drop (hIdx + 1)).length ∧
      rows = (lines.drop (hIdx + 1)).filterMap parseHpoaLine ∧
      valid = rows.length ∧
      (∀ l ∈ lines.take hIdx, l.head? = some '#') ∧
      md = (metaPairs (lines.take hIdx)).foldl
        (fun d p => pdSet d p.1 p.2) [] := by
  have hlt := findDataStart_lt lines hIdx h
  have htake := findDataStart_take lines hIdx h
  cases hget : lines.get? hIdx with
  | none =>
      rw [List.get?_eq_none] at hget
      omega
  | some headerLine =>
      refine ⟨parseMetadata lines, pySplitAll '\t' (pyStrip headerLine),
        (lines.drop (hIdx + 1)).length,
        ((lines.drop (hIdx + 1)).filterMap parseHpoaLine).length,
        (lines.drop (hIdx + 1)).filterMap parseHpoaLine,
        ?_, rfl, rfl, rfl, ?_, ?_⟩
      · unfold convertHpoa
        rw [h]
        simp only [Option.getD_some]
        rw [hget, hpoaFold_counts]
        simp
      · intro l hl
        rw [htake] at hl
        have := List.mem_takeWhile_imp hl
        simpa using this
      · rw [htake]
        unfold parseMetadata
        exact parseMetadataAux_eq lines []

/-- A concrete annotation file: two metadata lines, a header, one
well-shaped data line and one malformed data line. -/
def hpoaSample : List PyStr :=
  ["#version: 2024".data,
   "#description: \"test\"".data,
   "database_id\tdisease_name\tqualifier\thpo_id\treference\tevidence\tonset\tfrequency\tsex\tmodifier\taspect\tbiocuration".data,
   "OMIM:1\td1\t\tHP:1\tr\te\to\tf\ts\tm\ta\tb".data,
   "short\tline".data]

theorem annotation_reader_behavior_witness :
    ∃ md hdr total valid rows,
      convertHpoa hpoaSample = some (md, hdr, total, valid, rows) ∧
      total = (hpoaSample.drop 3).length ∧
      rows = (hpoaSample.drop 3).filterMap parseHpoaLine ∧
      valid = rows.length ∧
      (∀ l ∈ hpoaSample.take 2, l.head? = some '#') ∧
      md = (metaPairs (hpoaSample.take 2)).foldl
        (fun d p => pdSet d p.1 p.2) [] :=
  annotation_reader_behavior hpoaSample 2 (by decide)
